import Mathlib

/-! Mancala AI (`src/mancala.cpp`): a shallow embedding and its verification.

The C++ program is embedded as follows.

* `int` is `Int`; `INT_MIN` and `INT_MAX` are the 32-bit constants the search
  uses as placeholders.  The sowing, the game-over check and the search only
  move, increment and compare marbles, so they are written in `Int` as they
  stand.  `evaluate` multiplies, negates and sums, and its tests read the sums it
  has computed: each of its arithmetic operations is followed by `wrapInt`, the
  32-bit two's-complement wrap-around.  On a board of 48 marbles at a depth
  within `±2147483` no operation of `evaluate` leaves the range of `int`
  (`evaluate_eq_exact`).
* `int holes[NUMBER_OF_HOLES]` is a function `Fin 6 → Int`; an assignment
  `a[k] = v` is `Function.update a k v`.  A hole index passed to `updateBoard`
  is a `Fin 6` (an index outside `0..5` would be an out-of-bounds access in the
  source).  Inside the loops `holeIndex` runs up to `6` and is a `Nat`.
* Every `while` loop is a function recursing on a counter that bounds the
  number of iterations (six for the row loops, the number of marbles in hand
  for the outer loops); the loop still leaves through its own condition, and a
  larger counter changes nothing: `fillOwnMax_exit`, `sowMax_marbles`,
  `sowMax_fuel`, `sowMin_marbles`, `skipHoles_exit`, `isFreeTurnLoop_fuel`.
* A `for` loop over the holes recurses on the list of indices still to visit.
* `Board` is passed by value in the source, so every function is a pure
  function of its board.
-/

namespace Mancala

/-! ## Constants and the board -/

abbrev NUMBER_OF_HOLES : Nat := 6

abbrev NUMBER_OF_PREDICTED_TURNS : Nat := 10

abbrev TOTAL_NUMBER_OF_MARBLES : Int := 48

abbrev SCORE_WEIGHT : Int := 3

abbrev PLAYER_MARBLES_WEIGHT : Int := 1

abbrev OPPONENT_MARBLES_WEIGHT : Int := -1

abbrev INT_MIN : Int := -2147483648

abbrev INT_MAX : Int := 2147483647

/-- The `struct Board` of the source: two stores and two rows of six holes. -/
structure Board where
  maxPlayerMancala : Int
  minPlayerMancala : Int
  maxPlayerHoles : Fin NUMBER_OF_HOLES → Int
  minPlayerHoles : Fin NUMBER_OF_HOLES → Int

/-- The local variables of `updateBoard` while it sows: the board being built,
the running `holeIndex` and the `marbles` still in hand. -/
structure SowState where
  board : Board
  holeIndex : Nat
  marbles : Int

/-! ## `updateBoard`, branch of the maximizing player (lines 65-115) -/

/-- Lines 75-88: `while (holeIndex < NUMBER_OF_HOLES && marbles > 0)`, sowing the
mover's own row with the stealing check. -/
def fillOwnMax : Nat → SowState → SowState
  | 0, s => s
  | fuel + 1, s =>
    if h : s.holeIndex < NUMBER_OF_HOLES ∧ s.marbles > 0 then
      let k : Fin NUMBER_OF_HOLES := ⟨s.holeIndex, h.1⟩
      let b := s.board
      let b1 : Board :=
        if s.marbles = 1 ∧ b.maxPlayerHoles k = 0 then
          { b with
            maxPlayerHoles :=
              Function.update b.maxPlayerHoles k (b.maxPlayerHoles k + b.minPlayerHoles k)
            minPlayerHoles := Function.update b.minPlayerHoles k 0 }
        else b
      let b2 : Board :=
        { b1 with
          maxPlayerHoles := Function.update b1.maxPlayerHoles k (b1.maxPlayerHoles k + 1) }
      fillOwnMax fuel ⟨b2, s.holeIndex + 1, s.marbles - 1⟩
    else s

/-- Lines 108-113: `while (holeIndex < NUMBER_OF_HOLES && marbles > 0)`, sowing the
opponent's row. -/
def fillEnemyMax : Nat → SowState → SowState
  | 0, s => s
  | fuel + 1, s =>
    if h : s.holeIndex < NUMBER_OF_HOLES ∧ s.marbles > 0 then
      let k : Fin NUMBER_OF_HOLES := ⟨s.holeIndex, h.1⟩
      let b := s.board
      let b1 : Board :=
        { b with
          minPlayerHoles := Function.update b.minPlayerHoles k (b.minPlayerHoles k + 1) }
      fillEnemyMax fuel ⟨b1, s.holeIndex + 1, s.marbles - 1⟩
    else s

/-- Lines 72-114: `while (marbles > 0)` with its two `break`s.  Note that
`holeIndex` is set to `0` only before the opponent's row (line 106). -/
def sowMax : Nat → SowState → SowState
  | 0, s => s
  | fuel + 1, s =>
    if s.marbles > 0 then
      let s1 := fillOwnMax NUMBER_OF_HOLES s
      if s1.marbles ≤ 0 then s1
      else
        let s2 : SowState :=
          { s1 with
            board := { s1.board with maxPlayerMancala := s1.board.maxPlayerMancala + 1 }
            marbles := s1.marbles - 1 }
        if s2.marbles ≤ 0 then s2
        else
          let s3 := fillEnemyMax NUMBER_OF_HOLES { s2 with holeIndex := 0 }
          sowMax fuel s3
    else s

/-! ## `updateBoard`, branch of the minimizing player (lines 116-166) -/

/-- Lines 126-139: the mover's own row, minimizing player.  The stolen marbles
are assigned with `=` here (line 132). -/
def fillOwnMin : Nat → SowState → SowState
  | 0, s => s
  | fuel + 1, s =>
    if h : s.holeIndex < NUMBER_OF_HOLES ∧ s.marbles > 0 then
      let k : Fin NUMBER_OF_HOLES := ⟨s.holeIndex, h.1⟩
      let b := s.board
      let b1 : Board :=
        if s.marbles = 1 ∧ b.minPlayerHoles k = 0 then
          { b with
            minPlayerHoles := Function.update b.minPlayerHoles k (b.maxPlayerHoles k)
            maxPlayerHoles := Function.update b.maxPlayerHoles k 0 }
        else b
      let b2 : Board :=
        { b1 with
          minPlayerHoles := Function.update b1.minPlayerHoles k (b1.minPlayerHoles k + 1) }
      fillOwnMin fuel ⟨b2, s.holeIndex + 1, s.marbles - 1⟩
    else s

/-- Lines 159-164: the opponent's row, minimizing player. -/
def fillEnemyMin : Nat → SowState → SowState
  | 0, s => s
  | fuel + 1, s =>
    if h : s.holeIndex < NUMBER_OF_HOLES ∧ s.marbles > 0 then
      let k : Fin NUMBER_OF_HOLES := ⟨s.holeIndex, h.1⟩
      let b := s.board
      let b1 : Board :=
        { b with
          maxPlayerHoles := Function.update b.maxPlayerHoles k (b.maxPlayerHoles k + 1) }
      fillEnemyMin fuel ⟨b1, s.holeIndex + 1, s.marbles - 1⟩
    else s

/-- Lines 123-165: `while (marbles > 0)`, minimizing player. -/
def sowMin : Nat → SowState → SowState
  | 0, s => s
  | fuel + 1, s =>
    if s.marbles > 0 then
      let s1 := fillOwnMin NUMBER_OF_HOLES s
      if s1.marbles ≤ 0 then s1
      else
        let s2 : SowState :=
          { s1 with
            board := { s1.board with minPlayerMancala := s1.board.minPlayerMancala + 1 }
            marbles := s1.marbles - 1 }
        if s2.marbles ≤ 0 then s2
        else
          let s3 := fillEnemyMin NUMBER_OF_HOLES { s2 with holeIndex := 0 }
          sowMin fuel s3
    else s

/-- The state in which the sowing loop of `updateBoard` leaves: lines 50-166. -/
def updateBoardState (currentBoardState : Board) (maximizingPlayer : Bool)
    (holeIndex : Fin NUMBER_OF_HOLES) : SowState :=
  let newBoardState : Board := currentBoardState
  if maximizingPlayer then
    let marbles := newBoardState.maxPlayerHoles holeIndex
    let b : Board :=
      { newBoardState with
        maxPlayerHoles := Function.update newBoardState.maxPlayerHoles holeIndex 0 }
    sowMax marbles.toNat ⟨b, holeIndex.val + 1, marbles⟩
  else
    let marbles := newBoardState.minPlayerHoles holeIndex
    let b : Board :=
      { newBoardState with
        minPlayerHoles := Function.update newBoardState.minPlayerHoles holeIndex 0 }
    sowMin marbles.toNat ⟨b, holeIndex.val + 1, marbles⟩

/-- `Board updateBoard(Board currentBoardState, bool maximizingPlayer, int holeIndex)`,
lines 48-169. -/
def updateBoard (currentBoardState : Board) (maximizingPlayer : Bool)
    (holeIndex : Fin NUMBER_OF_HOLES) : Board :=
  (updateBoardState currentBoardState maximizingPlayer holeIndex).board

/-! ## `getTotalNumberOfMarbles` (lines 276-292) -/

/-- Lines 281-285: the loop adding both rows, hole by hole. -/
def sumHolesLoop (boardState : Board) : List (Fin NUMBER_OF_HOLES) → Int → Int
  | [], marbles => marbles
  | i :: rest, marbles =>
    sumHolesLoop boardState rest
      (marbles + boardState.maxPlayerHoles i + boardState.minPlayerHoles i)

/-- `int getTotalNumberOfMarbles(Board boardState)`. -/
def getTotalNumberOfMarbles (boardState : Board) : Int :=
  let marbles := sumHolesLoop boardState (List.finRange NUMBER_OF_HOLES) 0
  marbles + boardState.maxPlayerMancala + boardState.minPlayerMancala

/-! ## `isGameOver` (lines 176-226) -/

/-- Lines 183-190: the loop clearing `isMaximizingPlayerHolesEmpty` at the first
hole of the maximizing player that is not `0`. -/
def maxHolesEmptyLoop (boardState : Board) : List (Fin NUMBER_OF_HOLES) → Bool → Bool
  | [], isMaximizingPlayerHolesEmpty => isMaximizingPlayerHolesEmpty
  | i :: rest, isMaximizingPlayerHolesEmpty =>
    if boardState.maxPlayerHoles i ≠ 0 then false
    else maxHolesEmptyLoop boardState rest isMaximizingPlayerHolesEmpty

/-- Lines 193-200: the same loop over the holes of the minimizing player. -/
def minHolesEmptyLoop (boardState : Board) : List (Fin NUMBER_OF_HOLES) → Bool → Bool
  | [], isMinimizingPlayerHolesEmpty => isMinimizingPlayerHolesEmpty
  | i :: rest, isMinimizingPlayerHolesEmpty =>
    if boardState.minPlayerHoles i ≠ 0 then false
    else minHolesEmptyLoop boardState rest isMinimizingPlayerHolesEmpty

/-- Lines 209-222: the loop moving what is left in the holes to the stores. -/
def finalizeLoop : List (Fin NUMBER_OF_HOLES) → Board → Board
  | [], boardState => boardState
  | i :: rest, boardState =>
    let b1 : Board :=
      if boardState.maxPlayerHoles i > 0 then
        { boardState with
          maxPlayerMancala := boardState.maxPlayerMancala + boardState.maxPlayerHoles i
          maxPlayerHoles := Function.update boardState.maxPlayerHoles i 0 }
      else boardState
    let b2 : Board :=
      if b1.minPlayerHoles i > 0 then
        { b1 with
          minPlayerMancala := b1.minPlayerMancala + b1.minPlayerHoles i
          minPlayerHoles := Function.update b1.minPlayerHoles i 0 }
      else b1
    finalizeLoop rest b2

/-- The body of `isGameOver`: the flag it returns, together with the value its
by-value parameter `boardState` holds when it returns.  The caller receives the
flag only; its own board is not changed. -/
def isGameOverState (boardState : Board) : Bool × Board :=
  let isMaximizingPlayerHolesEmpty :=
    maxHolesEmptyLoop boardState (List.finRange NUMBER_OF_HOLES) true
  let isMinimizingPlayerHolesEmpty :=
    minHolesEmptyLoop boardState (List.finRange NUMBER_OF_HOLES) true
  let isGameOver := isMaximizingPlayerHolesEmpty || isMinimizingPlayerHolesEmpty
  if isGameOver then (isGameOver, finalizeLoop (List.finRange NUMBER_OF_HOLES) boardState)
  else (isGameOver, boardState)

/-- `bool isGameOver(Board boardState)`. -/
def isGameOver (boardState : Board) : Bool :=
  (isGameOverState boardState).1

/-! ## `isFreeTurn` (lines 231-269) -/

/-- Lines 238-242 and 259-263: `while (holeIndex < NUMBER_OF_HOLES && marbles > 0)`
on the pair `(holeIndex, marbles)`. -/
def skipHoles : Nat → Nat × Int → Nat × Int
  | 0, s => s
  | fuel + 1, (holeIndex, marbles) =>
    if holeIndex < NUMBER_OF_HOLES ∧ marbles > 0 then
      skipHoles fuel (holeIndex + 1, marbles - 1)
    else (holeIndex, marbles)

/-- Lines 235-268: `while (marbles > 0)`; the loop is left with `false` at the
`break` and when its condition fails, with `true` at line 252. -/
def isFreeTurnLoop : Nat → Nat → Int → Bool
  | 0, _, _ => false
  | fuel + 1, holeIndex, marbles =>
    if marbles > 0 then
      let s1 := skipHoles NUMBER_OF_HOLES (holeIndex, marbles)
      if s1.2 ≤ 0 then false
      else if s1.2 = 1 then true
      else
        let s3 := skipHoles NUMBER_OF_HOLES (0, s1.2 - 1)
        isFreeTurnLoop fuel 0 s3.2
    else false

/-- `bool isFreeTurn(int holeIndex, int marbles)`. -/
def isFreeTurn (holeIndex : Nat) (marbles : Int) : Bool :=
  isFreeTurnLoop marbles.toNat (holeIndex + 1) marbles

/-! ## `evaluate` (lines 303-349) -/

/-- The value an `int` holds after an operation whose exact result is `x`:
wrap-around to 32 bits, two's complement. -/
def wrapInt (x : Int) : Int :=
  (x + 2147483648) % 4294967296 - 2147483648

/-- Lines 313-325: the loop computing `(playerMarbles, opponentMarbles)`. -/
def countMarblesLoop (boardState : Board) (maximizingPlayer : Bool) :
    List (Fin NUMBER_OF_HOLES) → Int × Int → Int × Int
  | [], acc => acc
  | i :: rest, (playerMarbles, opponentMarbles) =>
    if maximizingPlayer then
      countMarblesLoop boardState maximizingPlayer rest
        (wrapInt (playerMarbles + boardState.maxPlayerHoles i),
         wrapInt (opponentMarbles + boardState.minPlayerHoles i))
    else
      countMarblesLoop boardState maximizingPlayer rest
        (wrapInt (playerMarbles + boardState.minPlayerHoles i),
         wrapInt (opponentMarbles + boardState.maxPlayerHoles i))

/-- `int evaluate(Board boardState, bool maximizingPlayer, int depth)`, in 32-bit
arithmetic. -/
def evaluate (boardState : Board) (maximizingPlayer : Bool) (depth : Int) : Int :=
  let score := wrapInt (boardState.maxPlayerMancala - boardState.minPlayerMancala)
  let counts :=
    countMarblesLoop boardState maximizingPlayer (List.finRange NUMBER_OF_HOLES) (0, 0)
  let playerMarbles := counts.1
  let opponentMarbles := counts.2
  if (playerMarbles > opponentMarbles ∧ isGameOver boardState = true) ∨
      boardState.maxPlayerMancala > TOTAL_NUMBER_OF_MARBLES / 2 then
    wrapInt (1000 * depth)
  else if (opponentMarbles < playerMarbles ∧ isGameOver boardState = true) ∨
      boardState.minPlayerMancala > TOTAL_NUMBER_OF_MARBLES / 2 then
    wrapInt (-1000 * wrapInt (-depth))
  else
    let playerMarbles := if !maximizingPlayer then wrapInt (-playerMarbles) else playerMarbles
    let opponentMarbles :=
      if !maximizingPlayer then wrapInt (-opponentMarbles) else opponentMarbles
    wrapInt
      (wrapInt
          (wrapInt (score * SCORE_WEIGHT) + wrapInt (playerMarbles * PLAYER_MARBLES_WEIGHT)) +
        wrapInt (opponentMarbles * OPPONENT_MARBLES_WEIGHT))

/-! ## `minimax` (lines 361-445) -/

/-- Lines 375-399: the loop of the maximizing player over the holes still to
visit, returning `(maxEval, maxEvalIndex)`.  `search` is the recursive call of
`minimax` at `depth - 1`. -/
def maxLoop (search : Board → Int → Int → Bool → Int) (currentBoardState : Board)
    (beta : Int) : List (Fin NUMBER_OF_HOLES) → Int → Int → Int → Int × Int
  | [], _, maxEval, maxEvalIndex => (maxEval, maxEvalIndex)
  | i :: rest, alpha, maxEval, maxEvalIndex =>
    if currentBoardState.maxPlayerHoles i > 0 then
      let newBoardState := updateBoard currentBoardState true i
      let freeTurn := isFreeTurn i.val (currentBoardState.maxPlayerHoles i)
      let eval := search newBoardState alpha beta freeTurn
      let best : Int × Int :=
        if eval > maxEval then (eval, (i.val : Int)) else (maxEval, maxEvalIndex)
      let alpha1 := max alpha eval
      if beta ≤ alpha1 then best
      else maxLoop search currentBoardState beta rest alpha1 best.1 best.2
    else maxLoop search currentBoardState beta rest alpha maxEval maxEvalIndex

/-- Lines 414-436: the loop of the minimizing player, returning
`(minEval, minEvalIndex)`. -/
def minLoop (search : Board → Int → Int → Bool → Int) (currentBoardState : Board)
    (alpha : Int) : List (Fin NUMBER_OF_HOLES) → Int → Int → Int → Int × Int
  | [], _, minEval, minEvalIndex => (minEval, minEvalIndex)
  | i :: rest, beta, minEval, minEvalIndex =>
    if currentBoardState.minPlayerHoles i > 0 then
      let newBoardState := updateBoard currentBoardState false i
      let freeTurn := isFreeTurn i.val (currentBoardState.minPlayerHoles i)
      let eval := search newBoardState alpha beta (!freeTurn)
      let best : Int × Int :=
        if eval < minEval then (eval, (i.val : Int)) else (minEval, minEvalIndex)
      let beta1 := min beta eval
      if beta1 ≤ alpha then best
      else minLoop search currentBoardState alpha rest beta1 best.1 best.2
    else minLoop search currentBoardState alpha rest beta minEval minEvalIndex

/-- `int minimax(Board currentBoardState, int depth, int alpha, int beta,
bool maximizingPlayer)` for `depth ≥ 0`. -/
def minimax (currentBoardState : Board) :
    Nat → Int → Int → Bool → Int
  | 0, _, _, maximizingPlayer => evaluate currentBoardState maximizingPlayer 0
  | depth + 1, alpha, beta, maximizingPlayer =>
    if isGameOver currentBoardState = true then
      evaluate currentBoardState maximizingPlayer ((depth + 1 : Nat) : Int)
    else if maximizingPlayer then
      let r := maxLoop (fun b a c m => minimax b depth a c m) currentBoardState beta
        (List.finRange NUMBER_OF_HOLES) alpha INT_MIN (-1)
      if depth + 1 = NUMBER_OF_PREDICTED_TURNS then r.2 else r.1
    else
      let r := minLoop (fun b a c m => minimax b depth a c m) currentBoardState alpha
        (List.finRange NUMBER_OF_HOLES) beta INT_MAX (-1)
      if depth + 1 = NUMBER_OF_PREDICTED_TURNS then r.2 else r.1

/-- Build a board from two stores and two lists of hole contents (for examples). -/
def mkBoard (maxStore minStore : Int) (maxHoles minHoles : List Int) : Board :=
  { maxPlayerMancala := maxStore
    minPlayerMancala := minStore
    maxPlayerHoles := fun i => maxHoles.getD i.val 0
    minPlayerHoles := fun i => minHoles.getD i.val 0 }

/-- The contents of a row as a list (for examples). -/
def rowList (f : Fin NUMBER_OF_HOLES → Int) : List Int :=
  (List.finRange NUMBER_OF_HOLES).map f

/-! ## Quantities used to state the properties -/

/-- The marbles in one row. -/
def rowSum (f : Fin NUMBER_OF_HOLES → Int) : Int :=
  ∑ i, f i

/-- Both stores plus all twelve holes, in closed form. -/
def Board.total (b : Board) : Int :=
  b.maxPlayerMancala + b.minPlayerMancala + rowSum b.maxPlayerHoles + rowSum b.minPlayerHoles

/-- Every store and every hole holds a non-negative number of marbles. -/
def Board.NonNeg (b : Board) : Prop :=
  0 ≤ b.maxPlayerMancala ∧ 0 ≤ b.minPlayerMancala ∧
    (∀ i, 0 ≤ b.maxPlayerHoles i) ∧ ∀ i, 0 ≤ b.minPlayerHoles i

instance (b : Board) : Decidable b.NonNeg := by
  unfold Board.NonNeg
  infer_instance

/-- The holes are non-negative and each row holds at most `INT_MAX` marbles, so
that the two counts of `evaluate` are computed without overflow. -/
def Board.RowsFit (b : Board) : Prop :=
  (∀ i, 0 ≤ b.maxPlayerHoles i) ∧ (∀ i, 0 ≤ b.minPlayerHoles i) ∧
    rowSum b.maxPlayerHoles ≤ INT_MAX ∧ rowSum b.minPlayerHoles ≤ INT_MAX

instance (b : Board) : Decidable b.RowsFit := by
  unfold Board.RowsFit
  infer_instance

/-- The board seen from the other side: stores exchanged, rows exchanged. -/
def Board.swap (b : Board) : Board :=
  { maxPlayerMancala := b.minPlayerMancala
    minPlayerMancala := b.maxPlayerMancala
    maxPlayerHoles := b.minPlayerHoles
    minPlayerHoles := b.maxPlayerHoles }

/-- A sowing state seen from the other side. -/
def SowState.swap (s : SowState) : SowState :=
  { s with board := s.board.swap }

/-- The store of the side that does not move. -/
def Board.opponentStore (b : Board) (maximizingPlayer : Bool) : Int :=
  if maximizingPlayer then b.minPlayerMancala else b.maxPlayerMancala

/-- The row of the side that moves. -/
def Board.moverHoles (b : Board) (maximizingPlayer : Bool) : Fin NUMBER_OF_HOLES → Int :=
  if maximizingPlayer then b.maxPlayerHoles else b.minPlayerHoles

/-- The row of the side that does not move. -/
def Board.opponentHoles (b : Board) (maximizingPlayer : Bool) : Fin NUMBER_OF_HOLES → Int :=
  if maximizingPlayer then b.minPlayerHoles else b.maxPlayerHoles

/-- What a stretch of sowing by the maximizing player keeps: marbles on the board
plus marbles in hand, the sign of the hand, the opponent's store, and
non-negativity of the board. -/
def SowRel (s r : SowState) : Prop :=
  r.board.total + r.marbles = s.board.total + s.marbles ∧
    r.marbles ≤ s.marbles ∧ (0 ≤ s.marbles → 0 ≤ r.marbles) ∧
    r.board.minPlayerMancala = s.board.minPlayerMancala ∧
    (s.board.NonNeg → r.board.NonNeg)

/-! ## The locals of `minimax` and the unpruned reference -/

/-- The pair `(maxEval, maxEvalIndex)`, resp. `(minEval, minEvalIndex)`, that a
call of `minimax` holds when it leaves its loop (lines 401 and 438); for a call
that returns at line 365, the evaluation and `-1`.  `minimax` returns the
second component when `depth == NUMBER_OF_PREDICTED_TURNS` and the first one
otherwise. -/
def minimaxLocals (currentBoardState : Board) (depth : Nat) (alpha beta : Int)
    (maximizingPlayer : Bool) : Int × Int :=
  match depth with
  | 0 => (evaluate currentBoardState maximizingPlayer 0, -1)
  | d + 1 =>
    if isGameOver currentBoardState = true then
      (evaluate currentBoardState maximizingPlayer ((d + 1 : Nat) : Int), -1)
    else if maximizingPlayer then
      maxLoop (fun b a c m => minimax b d a c m) currentBoardState beta
        (List.finRange NUMBER_OF_HOLES) alpha INT_MIN (-1)
    else
      minLoop (fun b a c m => minimax b d a c m) currentBoardState alpha
        (List.finRange NUMBER_OF_HOLES) beta INT_MAX (-1)

/-- Reference search of the specification (4.4) without pruning, maximizing
side: holes `0..5` in order, empty holes skipped, the free-turn rule deciding
who moves next, a later child replacing the best one only when strictly
greater.  `score` is the reference score of a child. -/
def plainMaxLoop (score : Board → Bool → Int) (b : Board) :
    List (Fin NUMBER_OF_HOLES) → Int → Int → Int × Int
  | [], best, bestIndex => (best, bestIndex)
  | i :: rest, best, bestIndex =>
    if b.maxPlayerHoles i > 0 then
      let value := score (updateBoard b true i) (isFreeTurn i.val (b.maxPlayerHoles i))
      if value > best then plainMaxLoop score b rest value (i.val : Int)
      else plainMaxLoop score b rest best bestIndex
    else plainMaxLoop score b rest best bestIndex

/-- Reference search without pruning, minimizing side. -/
def plainMinLoop (score : Board → Bool → Int) (b : Board) :
    List (Fin NUMBER_OF_HOLES) → Int → Int → Int × Int
  | [], best, bestIndex => (best, bestIndex)
  | i :: rest, best, bestIndex =>
    if b.minPlayerHoles i > 0 then
      let value := score (updateBoard b false i) (!isFreeTurn i.val (b.minPlayerHoles i))
      if value < best then plainMinLoop score b rest value (i.val : Int)
      else plainMinLoop score b rest best bestIndex
    else plainMinLoop score b rest best bestIndex

/-- Reference search without pruning: the pair (propagated score, index of the
best child) of a node; a terminal position or `depth = 0` is scored by
`evaluate` and has index `-1`. -/
def plainMinimax (b : Board) : Nat → Bool → Int × Int
  | 0, maximizingPlayer => (evaluate b maximizingPlayer 0, -1)
  | depth + 1, maximizingPlayer =>
    if isGameOver b = true then (evaluate b maximizingPlayer ((depth + 1 : Nat) : Int), -1)
    else if maximizingPlayer then
      plainMaxLoop (fun c m => (plainMinimax c depth m).1) b (List.finRange NUMBER_OF_HOLES)
        INT_MIN (-1)
    else
      plainMinLoop (fun c m => (plainMinimax c depth m).1) b (List.finRange NUMBER_OF_HOLES)
        INT_MAX (-1)

/-- What the reference search answers at its root: the index of the best child
when the search starts at the top-level depth `NUMBER_OF_PREDICTED_TURNS` on a
position that is not terminal, the propagated score otherwise. -/
def plainAnswer (b : Board) (depth : Nat) (maximizingPlayer : Bool) : Int :=
  if isGameOver b = true ∨ depth = 0 then (plainMinimax b depth maximizingPlayer).1
  else if depth = NUMBER_OF_PREDICTED_TURNS then (plainMinimax b depth maximizingPlayer).2
  else (plainMinimax b depth maximizingPlayer).1

/-- The guarantee of a pruned search with window `(alpha, beta)` returning `r`
where the unpruned value is `v`: exact inside the window, a bound on the right
side outside of it. -/
def FailSoft (alpha beta v r : Int) : Prop :=
  (v ≤ alpha → v ≤ r ∧ r ≤ alpha) ∧ (beta ≤ v → beta ≤ r ∧ r ≤ v) ∧
    (alpha < v → v < beta → r = v)

/-- A board of the game: non-negative entries, 48 marbles. -/
def Board.WellFormed (b : Board) : Prop :=
  b.NonNeg ∧ getTotalNumberOfMarbles b = TOTAL_NUMBER_OF_MARBLES

instance (b : Board) : Decidable b.WellFormed := by
  unfold Board.WellFormed
  infer_instance

/-! ## Sowing: what the loops of `updateBoard` preserve -/

theorem rowSum_update (f : Fin NUMBER_OF_HOLES → Int) (k : Fin NUMBER_OF_HOLES) (v : Int) :
    rowSum (Function.update f k v) = rowSum f - f k + v := by
  unfold rowSum
  have h1 := Finset.sum_update_of_mem (Finset.mem_univ k) f v
  have h2 := Finset.add_sum_erase Finset.univ f (Finset.mem_univ k)
  rw [h1, ← h2, Finset.sdiff_singleton_eq_erase]
  ring

theorem sowRel_refl (s : SowState) : SowRel s s :=
  ⟨rfl, le_refl _, fun h => h, rfl, fun h => h⟩

theorem sowRel_trans {s r t : SowState} (h1 : SowRel s r) (h2 : SowRel r t) : SowRel s t :=
  ⟨h2.1.trans h1.1, h2.2.1.trans h1.2.1, fun h => h2.2.2.1 (h1.2.2.1 h),
    h2.2.2.2.1.trans h1.2.2.2.1, fun h => h2.2.2.2.2 (h1.2.2.2.2 h)⟩

theorem nonneg_update {f : Fin NUMBER_OF_HOLES → Int} (hf : ∀ i, 0 ≤ f i)
    (k : Fin NUMBER_OF_HOLES) {v : Int} (hv : 0 ≤ v) : ∀ i, 0 ≤ Function.update f k v i := by
  intro i
  by_cases h : i = k
  · subst h; simpa using hv
  · simpa [Function.update_noteq h] using hf i

theorem fillOwnMax_rel (fuel : Nat) (s : SowState) : SowRel s (fillOwnMax fuel s) := by
  induction fuel generalizing s with
  | zero => exact sowRel_refl s
  | succ n ih =>
    unfold fillOwnMax
    split
    · rename_i h
      refine sowRel_trans ?_ (ih _)
      refine ⟨?_, by simp, fun h0 => by simp; omega, ?_, ?_⟩
      · by_cases hc : s.marbles = 1 ∧ s.board.maxPlayerHoles ⟨s.holeIndex, h.1⟩ = 0
        · simp [hc, Board.total, rowSum_update]; ring
        · simp only [hc, if_false, Board.total, rowSum_update]; ring
      · by_cases hc : s.marbles = 1 ∧ s.board.maxPlayerHoles ⟨s.holeIndex, h.1⟩ = 0
        · simp [hc]
        · simp [hc]
      · intro hn
        obtain ⟨h1, h2, h3, h4⟩ := hn
        by_cases hc : s.marbles = 1 ∧ s.board.maxPlayerHoles ⟨s.holeIndex, h.1⟩ = 0
        · simp only [hc, and_self, if_true]
          refine ⟨h1, h2, ?_, nonneg_update h4 _ (le_refl _)⟩
          apply nonneg_update
          · exact nonneg_update h3 _ (by have := h3 ⟨s.holeIndex, h.1⟩; have := h4 ⟨s.holeIndex, h.1⟩; omega)
          · simp; have := h4 ⟨s.holeIndex, h.1⟩; omega
        · simp only [hc, if_false]
          exact ⟨h1, h2, nonneg_update h3 _ (by have := h3 ⟨s.holeIndex, h.1⟩; omega), h4⟩
    · exact sowRel_refl s

theorem fillEnemyMax_rel (fuel : Nat) (s : SowState) : SowRel s (fillEnemyMax fuel s) := by
  induction fuel generalizing s with
  | zero => exact sowRel_refl s
  | succ n ih =>
    unfold fillEnemyMax
    split
    · rename_i h
      refine sowRel_trans ?_ (ih _)
      refine ⟨?_, by simp, fun h0 => by simp; omega, rfl, ?_⟩
      · simp only [Board.total, rowSum_update]; ring
      · intro hn
        obtain ⟨h1, h2, h3, h4⟩ := hn
        exact ⟨h1, h2, h3, nonneg_update h4 _ (by have := h4 ⟨s.holeIndex, h.1⟩; omega)⟩
    · exact sowRel_refl s

theorem storeStep_rel (s : SowState) (hpos : 0 < s.marbles) :
    SowRel s
      { s with
        board := { s.board with maxPlayerMancala := s.board.maxPlayerMancala + 1 }
        marbles := s.marbles - 1 } := by
  refine ⟨?_, by simp, fun _ => by simp; omega, rfl, ?_⟩
  · simp only [Board.total]; ring
  · intro hn
    obtain ⟨h1, h2, h3, h4⟩ := hn
    exact ⟨by simp; omega, h2, h3, h4⟩

theorem holeIndex_rel (s : SowState) (j : Nat) : SowRel s { s with holeIndex := j } :=
  ⟨rfl, le_refl _, fun h => h, rfl, fun h => h⟩

theorem sowMax_rel (fuel : Nat) (s : SowState) : SowRel s (sowMax fuel s) := by
  induction fuel generalizing s with
  | zero => exact sowRel_refl s
  | succ n ih =>
    unfold sowMax
    have h1 := fillOwnMax_rel NUMBER_OF_HOLES s
    dsimp only
    split
    · split
      · exact h1
      · rename_i hpos
        have h2 := storeStep_rel (fillOwnMax NUMBER_OF_HOLES s) (by omega)
        split
        · exact sowRel_trans h1 h2
        · exact sowRel_trans
            (sowRel_trans (sowRel_trans h1 h2)
              (sowRel_trans (holeIndex_rel _ 0) (fillEnemyMax_rel _ _)))
            (ih _)
    · exact sowRel_refl s

/-- The sowing loop of the maximizing player leaves through its own condition:
with as many iterations allowed as there are marbles in hand, no marble is left. -/
theorem sowMax_marbles (fuel : Nat) (s : SowState) (h : s.marbles ≤ fuel) :
    (sowMax fuel s).marbles ≤ 0 := by
  induction fuel generalizing s with
  | zero => simpa [sowMax] using h
  | succ n ih =>
    unfold sowMax
    have h1 := (fillOwnMax_rel NUMBER_OF_HOLES s).2.1
    dsimp only
    split
    · split
      · assumption
      · split
        · assumption
        · apply ih
          have h3 := (fillEnemyMax_rel NUMBER_OF_HOLES
            { (fillOwnMax NUMBER_OF_HOLES s) with
              board := { (fillOwnMax NUMBER_OF_HOLES s).board with
                maxPlayerMancala := (fillOwnMax NUMBER_OF_HOLES s).board.maxPlayerMancala + 1 }
              marbles := (fillOwnMax NUMBER_OF_HOLES s).marbles - 1
              holeIndex := 0 }).2.1
          simp only at h3
          push_cast at h
          omega
    · omega

/-! ## The two branches of `updateBoard` are mirror images -/

theorem board_swap_swap (b : Board) : b.swap.swap = b := rfl

theorem sowState_swap_swap (s : SowState) : s.swap.swap = s := rfl

theorem fillOwnMin_eq (fuel : Nat) (s : SowState) :
    fillOwnMin fuel s = (fillOwnMax fuel s.swap).swap := by
  induction fuel generalizing s with
  | zero => rfl
  | succ n ih =>
    unfold fillOwnMin fillOwnMax
    by_cases h : s.holeIndex < NUMBER_OF_HOLES ∧ s.marbles > 0
    · have h2 : s.swap.holeIndex < NUMBER_OF_HOLES ∧ s.swap.marbles > 0 := h
      rw [dif_pos h, dif_pos h2, ih]
      congr 2
      by_cases hc : s.marbles = 1 ∧ s.board.minPlayerHoles ⟨s.holeIndex, h.1⟩ = 0
      · have hc2 : s.swap.marbles = 1 ∧
            s.swap.board.maxPlayerHoles ⟨s.swap.holeIndex, h2.1⟩ = 0 := hc
        simp only [hc, hc2, and_self, if_true]
        simp [SowState.swap, Board.swap, hc.2]
      · have hc2 : ¬ (s.swap.marbles = 1 ∧
            s.swap.board.maxPlayerHoles ⟨s.swap.holeIndex, h2.1⟩ = 0) := hc
        simp only [hc, hc2, if_false]
        simp [SowState.swap, Board.swap]
    · have h2 : ¬ (s.swap.holeIndex < NUMBER_OF_HOLES ∧ s.swap.marbles > 0) := h
      rw [dif_neg h, dif_neg h2]
      rfl

theorem fillEnemyMin_eq (fuel : Nat) (s : SowState) :
    fillEnemyMin fuel s = (fillEnemyMax fuel s.swap).swap := by
  induction fuel generalizing s with
  | zero => rfl
  | succ n ih =>
    unfold fillEnemyMin fillEnemyMax
    by_cases h : s.holeIndex < NUMBER_OF_HOLES ∧ s.marbles > 0
    · have h2 : s.swap.holeIndex < NUMBER_OF_HOLES ∧ s.swap.marbles > 0 := h
      rw [dif_pos h, dif_pos h2, ih]
      rfl
    · have h2 : ¬ (s.swap.holeIndex < NUMBER_OF_HOLES ∧ s.swap.marbles > 0) := h
      rw [dif_neg h, dif_neg h2]
      rfl

theorem sowMin_eq (fuel : Nat) (s : SowState) :
    sowMin fuel s = (sowMax fuel s.swap).swap := by
  induction fuel generalizing s with
  | zero => rfl
  | succ n ih =>
    unfold sowMin sowMax
    simp only [fillOwnMin_eq, fillEnemyMin_eq, ih]
    have e : ∀ t : SowState, t.swap.marbles = t.marbles := fun _ => rfl
    simp only [e]
    split_ifs <;> rfl

theorem updateBoardState_false (b : Board) (i : Fin NUMBER_OF_HOLES) :
    updateBoardState b false i = (updateBoardState b.swap true i).swap := by
  simp only [updateBoardState, sowMin_eq]
  rfl

theorem updateBoard_false (b : Board) (i : Fin NUMBER_OF_HOLES) :
    updateBoard b false i = (updateBoard b.swap true i).swap := by
  simp only [updateBoard, updateBoardState_false]
  rfl

/-! ## `updateBoard`: totals, stores, signs -/

theorem total_swap (b : Board) : b.swap.total = b.total := by
  simp only [Board.total, Board.swap]; ring

theorem nonNeg_swap {b : Board} (h : b.NonNeg) : b.swap.NonNeg :=
  ⟨h.2.1, h.1, h.2.2.2, h.2.2.1⟩

theorem rowSum_eq_list (f : Fin NUMBER_OF_HOLES → Int) :
    rowSum f = ((List.finRange NUMBER_OF_HOLES).map f).sum := by
  unfold rowSum
  exact Fin.sum_univ_def f

theorem sumHolesLoop_eq (b : Board) (l : List (Fin NUMBER_OF_HOLES)) (acc : Int) :
    sumHolesLoop b l acc =
      acc + (l.map b.maxPlayerHoles).sum + (l.map b.minPlayerHoles).sum := by
  induction l generalizing acc with
  | nil => simp [sumHolesLoop]
  | cons i rest ih =>
    simp only [sumHolesLoop, ih, List.map_cons, List.sum_cons]
    ring

theorem getTotalNumberOfMarbles_eq (b : Board) : getTotalNumberOfMarbles b = b.total := by
  simp only [getTotalNumberOfMarbles, sumHolesLoop_eq, Board.total, rowSum_eq_list]
  ring

theorem updateBoardState_true_rel (b : Board) (i : Fin NUMBER_OF_HOLES) :
    SowRel
      ⟨{ b with maxPlayerHoles := Function.update b.maxPlayerHoles i 0 }, i.val + 1,
        b.maxPlayerHoles i⟩
      (updateBoardState b true i) := by
  simp only [updateBoardState, if_true]
  exact sowMax_rel _ _

theorem updateBoardState_true_marbles (b : Board) (i : Fin NUMBER_OF_HOLES)
    (h : 0 ≤ b.maxPlayerHoles i) : (updateBoardState b true i).marbles = 0 := by
  have h1 := (updateBoardState_true_rel b i).2.2.1 h
  have h2 : (updateBoardState b true i).marbles ≤ 0 := by
    simp only [updateBoardState, if_true]
    apply sowMax_marbles
    simp [Int.toNat_of_nonneg h]
  omega

theorem updateBoard_true_total (b : Board) (i : Fin NUMBER_OF_HOLES)
    (h : 0 ≤ b.maxPlayerHoles i) : (updateBoard b true i).total = b.total := by
  have h1 := (updateBoardState_true_rel b i).1
  have h2 := updateBoardState_true_marbles b i h
  simp only [updateBoard]
  simp only [Board.total, rowSum_update] at h1 ⊢
  omega

theorem updateBoard_total (b : Board) (maximizingPlayer : Bool) (i : Fin NUMBER_OF_HOLES)
    (h : 0 ≤ b.moverHoles maximizingPlayer i) :
    (updateBoard b maximizingPlayer i).total = b.total := by
  cases maximizingPlayer with
  | true => exact updateBoard_true_total b i h
  | false =>
    rw [updateBoard_false, total_swap, updateBoard_true_total b.swap i h,
      total_swap]

theorem updateBoard_true_minStore (b : Board) (i : Fin NUMBER_OF_HOLES) :
    (updateBoard b true i).minPlayerMancala = b.minPlayerMancala :=
  (updateBoardState_true_rel b i).2.2.2.1

theorem updateBoard_false_maxStore (b : Board) (i : Fin NUMBER_OF_HOLES) :
    (updateBoard b false i).maxPlayerMancala = b.maxPlayerMancala := by
  rw [updateBoard_false]
  exact updateBoard_true_minStore b.swap i

theorem updateBoard_true_nonNeg (b : Board) (i : Fin NUMBER_OF_HOLES) (h : b.NonNeg) :
    (updateBoard b true i).NonNeg := by
  apply (updateBoardState_true_rel b i).2.2.2.2
  exact ⟨h.1, h.2.1, nonneg_update h.2.2.1 i (le_refl _), h.2.2.2⟩

theorem updateBoard_nonNeg (b : Board) (maximizingPlayer : Bool) (i : Fin NUMBER_OF_HOLES)
    (h : b.NonNeg) : (updateBoard b maximizingPlayer i).NonNeg := by
  cases maximizingPlayer with
  | true => exact updateBoard_true_nonNeg b i h
  | false =>
    rw [updateBoard_false]
    exact nonNeg_swap (updateBoard_true_nonNeg b.swap i (nonNeg_swap h))

/-- C1 (marble conservation).  On a board whose stores and holes are all
non-negative, for either side and every hole index, `updateBoard` returns a
board with the same `getTotalNumberOfMarbles` as its input; so a board of
`TOTAL_NUMBER_OF_MARBLES = 48` marbles is mapped to a board of 48 marbles. -/
theorem updateBoard_conserves_marbles (b : Board) (hb : b.NonNeg) (maximizingPlayer : Bool)
    (i : Fin NUMBER_OF_HOLES) :
    getTotalNumberOfMarbles (updateBoard b maximizingPlayer i) = getTotalNumberOfMarbles b ∧
      (getTotalNumberOfMarbles b = TOTAL_NUMBER_OF_MARBLES →
        getTotalNumberOfMarbles (updateBoard b maximizingPlayer i) =
          TOTAL_NUMBER_OF_MARBLES) := by
  have h : getTotalNumberOfMarbles (updateBoard b maximizingPlayer i) =
      getTotalNumberOfMarbles b := by
    rw [getTotalNumberOfMarbles_eq, getTotalNumberOfMarbles_eq]
    apply updateBoard_total
    cases maximizingPlayer with
    | true => exact hb.2.2.1 i
    | false => exact hb.2.2.2 i
  exact ⟨h, fun h48 => h.trans h48⟩

theorem updateBoard_conserves_marbles_witness :
    (mkBoard 0 0 [4, 4, 4, 4, 4, 4] [4, 4, 4, 4, 4, 4]).NonNeg ∧
      getTotalNumberOfMarbles
          (updateBoard (mkBoard 0 0 [4, 4, 4, 4, 4, 4] [4, 4, 4, 4, 4, 4]) true 2) =
        getTotalNumberOfMarbles (mkBoard 0 0 [4, 4, 4, 4, 4, 4] [4, 4, 4, 4, 4, 4]) :=
  ⟨by decide,
    (updateBoard_conserves_marbles (mkBoard 0 0 [4, 4, 4, 4, 4, 4] [4, 4, 4, 4, 4, 4])
      (by decide) true 2).1⟩

/-- C9 (the opponent's store is never touched).  For every board, whatever the
number of marbles in the chosen hole, `updateBoard` leaves `minPlayerMancala`
as it was when the maximizing player moves, and `maxPlayerMancala` as it was
when the minimizing player moves. -/
theorem updateBoard_opponent_store_unchanged (b : Board) (maximizingPlayer : Bool)
    (i : Fin NUMBER_OF_HOLES) :
    (updateBoard b maximizingPlayer i).opponentStore maximizingPlayer =
      b.opponentStore maximizingPlayer := by
  cases maximizingPlayer with
  | true => exact updateBoard_true_minStore b i
  | false => exact updateBoard_false_maxStore b i

/-! ## Capture -/

/-- C6 (extra turn).  For a hole index `i` in `0..5` and `N = 6 - i`, the forward
distance from hole `i` to the mover's store, `isFreeTurn(i, N)` is `true` and
`isFreeTurn(i, N + 1)` is `false`. -/
theorem isFreeTurn_store_distance (i : Nat) (hi : i ≤ 5) :
    isFreeTurn i ((6 : Int) - (i : Int)) = true ∧
      isFreeTurn i ((6 : Int) - (i : Int) + 1) = false := by
  interval_cases i <;> decide

theorem isFreeTurn_store_distance_witness :
    (2 : Nat) ≤ 5 ∧ isFreeTurn 2 ((6 : Int) - ((2 : Nat) : Int)) = true ∧
      isFreeTurn 2 ((6 : Int) - ((2 : Nat) : Int) + 1) = false :=
  ⟨by decide, isFreeTurn_store_distance 2 (by decide)⟩

/-! ## `isGameOver` -/

theorem maxHolesEmptyLoop_iff (b : Board) (l : List (Fin NUMBER_OF_HOLES)) :
    maxHolesEmptyLoop b l true = true ↔ ∀ i ∈ l, b.maxPlayerHoles i = 0 := by
  induction l with
  | nil => simp [maxHolesEmptyLoop]
  | cons i rest ih =>
    unfold maxHolesEmptyLoop
    by_cases h : b.maxPlayerHoles i = 0
    · simp [h, ih]
    · simp [h]

theorem minHolesEmptyLoop_iff (b : Board) (l : List (Fin NUMBER_OF_HOLES)) :
    minHolesEmptyLoop b l true = true ↔ ∀ i ∈ l, b.minPlayerHoles i = 0 := by
  induction l with
  | nil => simp [minHolesEmptyLoop]
  | cons i rest ih =>
    unfold minHolesEmptyLoop
    by_cases h : b.minPlayerHoles i = 0
    · simp [h, ih]
    · simp [h]

theorem isGameOverState_fst (b : Board) :
    (isGameOverState b).1 =
      (maxHolesEmptyLoop b (List.finRange NUMBER_OF_HOLES) true ||
        minHolesEmptyLoop b (List.finRange NUMBER_OF_HOLES) true) := by
  unfold isGameOverState
  dsimp only
  split <;> rfl

theorem isGameOver_eq_true_iff (b : Board) :
    isGameOver b = true ↔
      (∀ i, b.maxPlayerHoles i = 0) ∨ (∀ i, b.minPlayerHoles i = 0) := by
  unfold isGameOver
  rw [isGameOverState_fst, Bool.or_eq_true, maxHolesEmptyLoop_iff, minHolesEmptyLoop_iff]
  simp [List.mem_finRange]

/-- C8 (game-over test).  For every board, `isGameOver` returns `true` exactly
when all six holes of the maximizing player are `0` or all six holes of the
minimizing player are `0`. -/
theorem isGameOver_iff_a_row_is_empty (b : Board) :
    isGameOver b = true ↔
      (∀ i : Fin NUMBER_OF_HOLES, b.maxPlayerHoles i = 0) ∨
        (∀ i : Fin NUMBER_OF_HOLES, b.minPlayerHoles i = 0) :=
  isGameOver_eq_true_iff b

/-- C10 (wrap back to the mover's own row) fails on the code.  With 8 marbles
in hole `5` of the maximizing player (`8 = 13 - 5`) the sowing puts one marble
in the store, one in each of the opponent's six holes, and the last marble in
the store again: the mover's hole `0` is unchanged and the store has gained 2.
`holeIndex` is `6` after the opponent's row and is not reset before the own-row
loop (line 75), so that loop is skipped.  The same holds for the minimizing
player. -/
theorem updateBoard_lap_skips_own_row :
    (mkBoard 0 0 [4, 4, 4, 4, 0, 8] [4, 4, 4, 4, 4, 4]).NonNeg ∧
      getTotalNumberOfMarbles (mkBoard 0 0 [4, 4, 4, 4, 0, 8] [4, 4, 4, 4, 4, 4]) = 48 ∧
      rowList (updateBoard (mkBoard 0 0 [4, 4, 4, 4, 0, 8] [4, 4, 4, 4, 4, 4]) true
        5).maxPlayerHoles = [4, 4, 4, 4, 0, 0] ∧
      rowList (updateBoard (mkBoard 0 0 [4, 4, 4, 4, 0, 8] [4, 4, 4, 4, 4, 4]) true
        5).minPlayerHoles = [5, 5, 5, 5, 5, 5] ∧
      (updateBoard (mkBoard 0 0 [4, 4, 4, 4, 0, 8] [4, 4, 4, 4, 4, 4]) true
        5).maxPlayerMancala = 2 ∧
      rowList (updateBoard (mkBoard 0 0 [4, 4, 4, 4, 4, 4] [4, 4, 4, 4, 0, 8]) false
        5).minPlayerHoles = [4, 4, 4, 4, 0, 0] ∧
      (updateBoard (mkBoard 0 0 [4, 4, 4, 4, 4, 4] [4, 4, 4, 4, 0, 8]) false
        5).minPlayerMancala = 2 := by
  decide

/-! ## `minimax` on a finished game -/

theorem minimax_of_gameOver (b : Board) (depth : Nat) (alpha beta : Int)
    (maximizingPlayer : Bool) (h : isGameOver b = true) :
    minimax b depth alpha beta maximizingPlayer = evaluate b maximizingPlayer (depth : Int) := by
  cases depth with
  | zero => rfl
  | succ d => rw [minimax, if_pos h]

/-- C4 (sentinel on terminal input) fails on the code.  On the finished board
with stores 30 and 10, the maximizing player's row empty and 8 marbles in the
minimizing player's hole `0`, `isGameOver` is `true` and the root call
`minimax(board, 10, INT_MIN, INT_MAX, true)` returns the evaluated score
`1000 * 10 = 10000`, not `-1`: the test of line 363 returns before the root is
told apart from the other nodes (line 402). -/
theorem minimax_root_on_finished_board :
    isGameOver (mkBoard 30 10 [0, 0, 0, 0, 0, 0] [8, 0, 0, 0, 0, 0]) = true ∧
      minimax (mkBoard 30 10 [0, 0, 0, 0, 0, 0] [8, 0, 0, 0, 0, 0]) NUMBER_OF_PREDICTED_TURNS
        INT_MIN INT_MAX true = 10000 ∧
      minimax (mkBoard 30 10 [0, 0, 0, 0, 0, 0] [8, 0, 0, 0, 0, 0]) NUMBER_OF_PREDICTED_TURNS
        INT_MIN INT_MAX true ≠ -1 := by
  decide

/-! ## Pruning: one loop of `minimax` against the reference loop -/

theorem plainMaxLoop_ge (score : Board → Bool → Int) (b : Board)
    (l : List (Fin NUMBER_OF_HOLES)) :
    ∀ best bestIndex : Int, best ≤ (plainMaxLoop score b l best bestIndex).1 := by
  induction l with
  | nil => intro best bestIndex; exact le_refl _
  | cons i rest ih =>
    intro best bestIndex
    unfold plainMaxLoop
    dsimp only
    split
    · split
      · rename_i h
        exact le_trans (le_of_lt h) (ih _ _)
      · exact ih _ _
    · exact ih _ _

theorem plainMinLoop_le (score : Board → Bool → Int) (b : Board)
    (l : List (Fin NUMBER_OF_HOLES)) :
    ∀ best bestIndex : Int, (plainMinLoop score b l best bestIndex).1 ≤ best := by
  induction l with
  | nil => intro best bestIndex; exact le_refl _
  | cons i rest ih =>
    intro best bestIndex
    unfold plainMinLoop
    dsimp only
    split
    · split
      · rename_i h
        exact le_trans (ih _ _) (le_of_lt h)
      · exact ih _ _
    · exact ih _ _

/-- The loop of the maximizing player, started anywhere in the row with a state
related to the reference loop's state, ends with a fail-soft value for the
window `(alpha0, beta)` the call was entered with. -/
theorem maxLoop_failSoft (search : Board → Int → Int → Bool → Int)
    (score : Board → Bool → Int) (b : Board) (alpha0 beta : Int) (hα0 : INT_MIN ≤ alpha0)
    (hβ : beta ≤ INT_MAX)
    (hs : ∀ c a d m, INT_MIN ≤ a → a < d → d ≤ INT_MAX →
      FailSoft a d (score c m) (search c a d m))
    (l : List (Fin NUMBER_OF_HOLES)) :
    ∀ alpha m idx M Idx : Int, alpha = max alpha0 m → alpha < beta →
      (M ≤ alpha0 → M ≤ m ∧ m ≤ alpha0) → (alpha0 < M → m = M) →
      FailSoft alpha0 beta (plainMaxLoop score b l M Idx).1
        (maxLoop search b beta l alpha m idx).1 := by
  induction l with
  | nil =>
    intro alpha m idx M Idx h1 h2 h3 h4
    simp only [plainMaxLoop, maxLoop]
    refine ⟨h3, fun h => ?_, fun h _ => h4 h⟩
    omega
  | cons i rest ih =>
    intro alpha m idx M Idx h1 h2 h3 h4
    unfold plainMaxLoop maxLoop
    dsimp only
    split
    · have hfs := hs (updateBoard b true i) alpha beta
        (isFreeTurn i.val (b.maxPlayerHoles i)) (by omega) h2 hβ
      obtain ⟨f1, f2, f3⟩ := hfs
      generalize search (updateBoard b true i) alpha beta
        (isFreeTurn i.val (b.maxPlayerHoles i)) = r at *
      generalize score (updateBoard b true i) (isFreeTurn i.val (b.maxPlayerHoles i)) = v at *
      by_cases hbreak : beta ≤ max alpha r
      · rw [if_pos hbreak]
        have hV : ∀ M' Idx', v ≤ M' → v ≤ (plainMaxLoop score b rest M' Idx').1 :=
          fun M' Idx' h => le_trans h (plainMaxLoop_ge score b rest M' Idx')
        have hV2 : ∀ M' Idx', M ≤ M' → M ≤ (plainMaxLoop score b rest M' Idx').1 :=
          fun M' Idx' h => le_trans h (plainMaxLoop_ge score b rest M' Idx')
        by_cases hv : v > M <;> by_cases hr : r > m <;>
          simp only [hv, hr, if_true, if_false]
        · have a1 := hV v i.val (le_refl _)
          have a2 := hV2 v i.val (by omega)
          refine ⟨fun _ => ?_, fun _ => ?_, fun _ _ => ?_⟩ <;> omega
        · have a1 := hV v i.val (le_refl _)
          have a2 := hV2 v i.val (by omega)
          refine ⟨fun _ => ?_, fun _ => ?_, fun _ _ => ?_⟩ <;> omega
        · have a1 := hV M Idx (by omega)
          have a2 := hV2 M Idx (le_refl _)
          refine ⟨fun _ => ?_, fun _ => ?_, fun _ _ => ?_⟩ <;> omega
        · have a1 := hV M Idx (by omega)
          have a2 := hV2 M Idx (le_refl _)
          refine ⟨fun _ => ?_, fun _ => ?_, fun _ _ => ?_⟩ <;> omega
      · rw [if_neg hbreak]
        by_cases hv : v > M <;> by_cases hr : r > m <;>
          simp only [hv, hr, if_true, if_false]
        · exact ih _ _ _ _ _ (by omega) (by omega) (by omega) (by omega)
        · exact ih _ _ _ _ _ (by omega) (by omega) (by omega) (by omega)
        · exact ih _ _ _ _ _ (by omega) (by omega) (by omega) (by omega)
        · exact ih _ _ _ _ _ (by omega) (by omega) (by omega) (by omega)
    · exact ih _ _ _ _ _ h1 h2 h3 h4

/-- The loop of the minimizing player: the mirror image of `maxLoop_failSoft`. -/
theorem minLoop_failSoft (search : Board → Int → Int → Bool → Int)
    (score : Board → Bool → Int) (b : Board) (alpha beta0 : Int) (hα : INT_MIN ≤ alpha)
    (hβ0 : beta0 ≤ INT_MAX)
    (hs : ∀ c a d m, INT_MIN ≤ a → a < d → d ≤ INT_MAX →
      FailSoft a d (score c m) (search c a d m))
    (l : List (Fin NUMBER_OF_HOLES)) :
    ∀ beta m idx M Idx : Int, beta = min beta0 m → alpha < beta →
      (beta0 ≤ M → m ≤ M ∧ beta0 ≤ m) → (M < beta0 → m = M) →
      FailSoft alpha beta0 (plainMinLoop score b l M Idx).1
        (minLoop search b alpha l beta m idx).1 := by
  induction l with
  | nil =>
    intro beta m idx M Idx h1 h2 h3 h4
    simp only [plainMinLoop, minLoop]
    refine ⟨fun h => ?_, fun h => ⟨(h3 h).2, (h3 h).1⟩, fun _ h => h4 h⟩
    omega
  | cons i rest ih =>
    intro beta m idx M Idx h1 h2 h3 h4
    unfold plainMinLoop minLoop
    dsimp only
    split
    · have hfs := hs (updateBoard b false i) alpha beta
        (!isFreeTurn i.val (b.minPlayerHoles i)) hα h2 (by omega)
      obtain ⟨f1, f2, f3⟩ := hfs
      generalize search (updateBoard b false i) alpha beta
        (!isFreeTurn i.val (b.minPlayerHoles i)) = r at *
      generalize score (updateBoard b false i) (!isFreeTurn i.val (b.minPlayerHoles i)) = v at *
      by_cases hbreak : min beta r ≤ alpha
      · rw [if_pos hbreak]
        have hV : ∀ M' Idx', M' ≤ v → (plainMinLoop score b rest M' Idx').1 ≤ v :=
          fun M' Idx' h => le_trans (plainMinLoop_le score b rest M' Idx') h
        have hV2 : ∀ M' Idx', M' ≤ M → (plainMinLoop score b rest M' Idx').1 ≤ M :=
          fun M' Idx' h => le_trans (plainMinLoop_le score b rest M' Idx') h
        by_cases hv : v < M <;> by_cases hr : r < m <;>
          simp only [hv, hr, if_true, if_false]
        · have a1 := hV v i.val (le_refl _)
          have a2 := hV2 v i.val (by omega)
          refine ⟨fun _ => ?_, fun _ => ?_, fun _ _ => ?_⟩ <;> omega
        · have a1 := hV v i.val (le_refl _)
          have a2 := hV2 v i.val (by omega)
          refine ⟨fun _ => ?_, fun _ => ?_, fun _ _ => ?_⟩ <;> omega
        · have a1 := hV M Idx (by omega)
          have a2 := hV2 M Idx (le_refl _)
          refine ⟨fun _ => ?_, fun _ => ?_, fun _ _ => ?_⟩ <;> omega
        · have a1 := hV M Idx (by omega)
          have a2 := hV2 M Idx (le_refl _)
          refine ⟨fun _ => ?_, fun _ => ?_, fun _ _ => ?_⟩ <;> omega
      · rw [if_neg hbreak]
        by_cases hv : v < M <;> by_cases hr : r < m <;>
          simp only [hv, hr, if_true, if_false]
        · exact ih _ _ _ _ _ (by omega) (by omega) (by omega) (by omega)
        · exact ih _ _ _ _ _ (by omega) (by omega) (by omega) (by omega)
        · exact ih _ _ _ _ _ (by omega) (by omega) (by omega) (by omega)
        · exact ih _ _ _ _ _ (by omega) (by omega) (by omega) (by omega)
    · exact ih _ _ _ _ _ h1 h2 h3 h4

theorem failSoft_refl (alpha beta v : Int) : FailSoft alpha beta v v :=
  ⟨fun h => ⟨le_refl _, h⟩, fun h => ⟨h, le_refl _⟩, fun _ _ => rfl⟩

/-- Below the top-level depth every call of `minimax` is fail-soft with respect
to the reference score, for every window inside `[INT_MIN, INT_MAX]`. -/
theorem minimax_failSoft (d : Nat) (hd : d < NUMBER_OF_PREDICTED_TURNS) :
    ∀ (b : Board) (alpha beta : Int) (m : Bool), INT_MIN ≤ alpha → alpha < beta →
      beta ≤ INT_MAX → FailSoft alpha beta (plainMinimax b d m).1 (minimax b d alpha beta m) := by
  induction d with
  | zero =>
    intro b alpha beta m _ _ _
    exact failSoft_refl _ _ _
  | succ n ih =>
    intro b alpha beta m h1 h2 h3
    have ih2 := ih (by omega)
    rw [minimax, plainMinimax]
    by_cases hover : isGameOver b = true
    · rw [if_pos hover, if_pos hover]
      exact failSoft_refl _ _ _
    · rw [if_neg hover, if_neg hover]
      have hne : ¬ (n + 1 = NUMBER_OF_PREDICTED_TURNS) := by omega
      cases m with
      | true =>
        simp only [if_true, hne, if_false]
        exact maxLoop_failSoft (fun b a c m => minimax b n a c m)
          (fun c m => (plainMinimax c n m).1) b alpha beta h1 h3
          (fun c a d m ha had hd => ih2 c a d m ha had hd) _ alpha INT_MIN (-1) INT_MIN (-1)
          (by omega) h2 (by omega) (by omega)
      | false =>
        simp only [Bool.false_eq_true, if_false, hne]
        exact minLoop_failSoft (fun b a c m => minimax b n a c m)
          (fun c m => (plainMinimax c n m).1) b alpha beta h1 h3
          (fun c a d m ha had hd => ih2 c a d m ha had hd) _ beta INT_MAX (-1) INT_MAX (-1)
          (by omega) h2 (by omega) (by omega)

/-! ## Pruning at the root: the window `(INT_MIN, INT_MAX)` -/

/-- With `beta = INT_MAX`, `alpha` equal to the best value so far and child
scores below `INT_MAX`, the loop of the maximizing player never breaks and goes
through the same `(best, index)` states as the reference loop. -/
theorem maxLoop_root (search : Board → Int → Int → Bool → Int)
    (score : Board → Bool → Int) (b : Board)
    (hs : ∀ c a d m, INT_MIN ≤ a → a < d → d ≤ INT_MAX →
      FailSoft a d (score c m) (search c a d m))
    (hv : ∀ i m, score (updateBoard b true i) m < INT_MAX)
    (l : List (Fin NUMBER_OF_HOLES)) :
    ∀ m idx : Int, INT_MIN ≤ m → m < INT_MAX →
      maxLoop search b INT_MAX l m m idx = plainMaxLoop score b l m idx := by
  induction l with
  | nil => intro m idx _ _; rfl
  | cons i rest ih =>
    intro m idx h1 h2
    unfold plainMaxLoop maxLoop
    dsimp only
    split
    · have hfs := hs (updateBoard b true i) m INT_MAX
        (isFreeTurn i.val (b.maxPlayerHoles i)) h1 h2 (le_refl _)
      have hlt := hv i (isFreeTurn i.val (b.maxPlayerHoles i))
      obtain ⟨f1, f2, f3⟩ := hfs
      generalize search (updateBoard b true i) m INT_MAX
        (isFreeTurn i.val (b.maxPlayerHoles i)) = r at *
      generalize score (updateBoard b true i) (isFreeTurn i.val (b.maxPlayerHoles i)) = v at *
      by_cases hgt : v > m
      · have hr : r = v := f3 hgt hlt
        subst hr
        have hmax : max m r = r := by omega
        rw [hmax, if_neg (by omega), if_pos hgt, if_pos hgt]
        exact ih _ _ (by omega) hlt
      · have hr : ¬ (r > m) := by omega
        have hmax : max m r = m := by omega
        rw [hmax, if_neg (by omega), if_neg hr, if_neg hgt]
        exact ih _ _ h1 h2
    · exact ih _ _ h1 h2

theorem minLoop_root (search : Board → Int → Int → Bool → Int)
    (score : Board → Bool → Int) (b : Board)
    (hs : ∀ c a d m, INT_MIN ≤ a → a < d → d ≤ INT_MAX →
      FailSoft a d (score c m) (search c a d m))
    (hv : ∀ i m, INT_MIN < score (updateBoard b false i) m)
    (l : List (Fin NUMBER_OF_HOLES)) :
    ∀ m idx : Int, INT_MIN < m → m ≤ INT_MAX →
      minLoop search b INT_MIN l m m idx = plainMinLoop score b l m idx := by
  induction l with
  | nil => intro m idx _ _; rfl
  | cons i rest ih =>
    intro m idx h1 h2
    unfold plainMinLoop minLoop
    dsimp only
    split
    · have hfs := hs (updateBoard b false i) INT_MIN m
        (!isFreeTurn i.val (b.minPlayerHoles i)) (le_refl _) h1 h2
      have hlt := hv i (!isFreeTurn i.val (b.minPlayerHoles i))
      obtain ⟨f1, f2, f3⟩ := hfs
      generalize search (updateBoard b false i) INT_MIN m
        (!isFreeTurn i.val (b.minPlayerHoles i)) = r at *
      generalize score (updateBoard b false i) (!isFreeTurn i.val (b.minPlayerHoles i)) = v at *
      by_cases hgt : v < m
      · have hr : r = v := f3 hlt hgt
        subst hr
        have hmin : min m r = r := by omega
        rw [hmin, if_neg (by omega), if_pos hgt, if_pos hgt]
        exact ih _ _ hlt (by omega)
      · have hr : ¬ (r < m) := by omega
        have hmin : min m r = m := by omega
        rw [hmin, if_neg (by omega), if_neg hr, if_neg hgt]
        exact ih _ _ h1 h2
    · exact ih _ _ h1 h2

/-! ## `evaluate` where its 32-bit arithmetic is exact -/

theorem wrapInt_of_range {x : Int} (h1 : -2147483648 ≤ x) (h2 : x ≤ 2147483647) :
    wrapInt x = x := by
  unfold wrapInt
  omega

theorem rowSum_nonneg {f : Fin NUMBER_OF_HOLES → Int} (h : ∀ i, 0 ≤ f i) : 0 ≤ rowSum f := by
  unfold rowSum
  exact Finset.sum_nonneg (fun i _ => h i)

theorem list_map_sum_nonneg {f : Fin NUMBER_OF_HOLES → Int} (h : ∀ i, 0 ≤ f i)
    (l : List (Fin NUMBER_OF_HOLES)) : 0 ≤ (l.map f).sum := by
  induction l with
  | nil => simp
  | cons i rest ih =>
    simp only [List.map_cons, List.sum_cons]
    have := h i
    omega

/-- The counting loop adds up both rows exactly as long as the holes are
non-negative and the sums stay within `INT_MAX`. -/
theorem countMarblesLoop_eq (b : Board) (maximizingPlayer : Bool)
    (hm : ∀ i, 0 ≤ b.moverHoles maximizingPlayer i)
    (ho : ∀ i, 0 ≤ b.opponentHoles maximizingPlayer i)
    (l : List (Fin NUMBER_OF_HOLES)) :
    ∀ p o : Int, 0 ≤ p → 0 ≤ o →
      p + (l.map (b.moverHoles maximizingPlayer)).sum ≤ 2147483647 →
      o + (l.map (b.opponentHoles maximizingPlayer)).sum ≤ 2147483647 →
      countMarblesLoop b maximizingPlayer l (p, o) =
        (p + (l.map (b.moverHoles maximizingPlayer)).sum,
          o + (l.map (b.opponentHoles maximizingPlayer)).sum) := by
  induction l with
  | nil => intro p o _ _ _ _; simp [countMarblesLoop]
  | cons i rest ih =>
    intro p o hp ho0 hps hos
    have n1 := list_map_sum_nonneg hm rest
    have n2 := list_map_sum_nonneg ho rest
    have m1 := hm i
    have m2 := ho i
    simp only [List.map_cons, List.sum_cons] at hps hos ⊢
    have w1 : wrapInt (p + b.moverHoles maximizingPlayer i) =
        p + b.moverHoles maximizingPlayer i := wrapInt_of_range (by omega) (by omega)
    have w2 : wrapInt (o + b.opponentHoles maximizingPlayer i) =
        o + b.opponentHoles maximizingPlayer i := wrapInt_of_range (by omega) (by omega)
    have key := ih (p + b.moverHoles maximizingPlayer i)
      (o + b.opponentHoles maximizingPlayer i) (by omega) (by omega) (by omega) (by omega)
    cases maximizingPlayer with
    | true =>
      simp only [Board.moverHoles, Board.opponentHoles, if_true] at w1 w2 key ⊢
      simp only [countMarblesLoop, if_true, w1, w2, key, add_assoc]
    | false =>
      simp only [Board.moverHoles, Board.opponentHoles, Bool.false_eq_true, if_false]
        at w1 w2 key ⊢
      simp only [countMarblesLoop, Bool.false_eq_true, if_false, w1, w2, key, add_assoc]

theorem rowsFit_mover_opponent (b : Board) (hb : b.RowsFit) (maximizingPlayer : Bool) :
    (∀ i, 0 ≤ b.moverHoles maximizingPlayer i) ∧
      (∀ i, 0 ≤ b.opponentHoles maximizingPlayer i) ∧
      rowSum (b.moverHoles maximizingPlayer) ≤ 2147483647 ∧
      rowSum (b.opponentHoles maximizingPlayer) ≤ 2147483647 := by
  cases maximizingPlayer with
  | true => exact ⟨hb.1, hb.2.1, hb.2.2.1, hb.2.2.2⟩
  | false => exact ⟨hb.2.1, hb.1, hb.2.2.2, hb.2.2.1⟩

/-- The body of `evaluate` with the two counts written as row sums, on a board
whose rows are counted without overflow. -/
theorem evaluate_eq (b : Board) (hb : b.RowsFit) (maximizingPlayer : Bool) (depth : Int) :
    evaluate b maximizingPlayer depth =
      if (rowSum (b.moverHoles maximizingPlayer) > rowSum (b.opponentHoles maximizingPlayer) ∧
            isGameOver b = true) ∨
          b.maxPlayerMancala > TOTAL_NUMBER_OF_MARBLES / 2 then
        wrapInt (1000 * depth)
      else if (rowSum (b.opponentHoles maximizingPlayer) <
              rowSum (b.moverHoles maximizingPlayer) ∧ isGameOver b = true) ∨
          b.minPlayerMancala > TOTAL_NUMBER_OF_MARBLES / 2 then
        wrapInt (-1000 * wrapInt (-depth))
      else
        wrapInt
          (wrapInt
              (wrapInt (wrapInt (b.maxPlayerMancala - b.minPlayerMancala) * SCORE_WEIGHT) +
                wrapInt
                  ((if !maximizingPlayer then wrapInt (-rowSum (b.moverHoles maximizingPlayer))
                    else rowSum (b.moverHoles maximizingPlayer)) * PLAYER_MARBLES_WEIGHT)) +
            wrapInt
              ((if !maximizingPlayer then wrapInt (-rowSum (b.opponentHoles maximizingPlayer))
                else rowSum (b.opponentHoles maximizingPlayer)) *
                OPPONENT_MARBLES_WEIGHT)) := by
  obtain ⟨h1, h2, h3, h4⟩ := rowsFit_mover_opponent b hb maximizingPlayer
  rw [rowSum_eq_list] at h3 h4
  have hc := countMarblesLoop_eq b maximizingPlayer h1 h2 (List.finRange NUMBER_OF_HOLES) 0 0
    (le_refl _) (le_refl _) (by omega) (by omega)
  unfold evaluate
  simp only [hc, ← rowSum_eq_list, zero_add]

/-- A board with non-negative entries and at most `INT_MAX / 3` marbles has rows
that are counted without overflow. -/
theorem rowsFit_of_total (b : Board) (hb : b.NonNeg) (ht : 3 * b.total ≤ 2147483647) :
    b.RowsFit := by
  have p1 := rowSum_nonneg hb.2.2.1
  have p2 := rowSum_nonneg hb.2.2.2
  have q1 := hb.1
  have q2 := hb.2.1
  simp only [Board.total] at ht
  exact ⟨hb.2.2.1, hb.2.2.2, by show _ ≤ (2147483647 : Int); omega,
    by show _ ≤ (2147483647 : Int); omega⟩

/-- On a board with non-negative entries and at most `INT_MAX / 3` marbles, at a
depth within `±2147483`, no operation of `evaluate` overflows: it returns what
the same expressions give in exact arithmetic. -/
theorem evaluate_eq_exact (b : Board) (hb : b.NonNeg) (ht : 3 * b.total ≤ 2147483647)
    (maximizingPlayer : Bool) (depth : Int) (hd1 : -2147483 ≤ depth)
    (hd2 : depth ≤ 2147483) :
    evaluate b maximizingPlayer depth =
      if (rowSum (b.moverHoles maximizingPlayer) > rowSum (b.opponentHoles maximizingPlayer) ∧
            isGameOver b = true) ∨
          b.maxPlayerMancala > TOTAL_NUMBER_OF_MARBLES / 2 then
        1000 * depth
      else if (rowSum (b.opponentHoles maximizingPlayer) <
              rowSum (b.moverHoles maximizingPlayer) ∧ isGameOver b = true) ∨
          b.minPlayerMancala > TOTAL_NUMBER_OF_MARBLES / 2 then
        -1000 * -depth
      else
        (b.maxPlayerMancala - b.minPlayerMancala) * SCORE_WEIGHT +
          (if !maximizingPlayer then -rowSum (b.moverHoles maximizingPlayer)
            else rowSum (b.moverHoles maximizingPlayer)) * PLAYER_MARBLES_WEIGHT +
          (if !maximizingPlayer then -rowSum (b.opponentHoles maximizingPlayer)
            else rowSum (b.opponentHoles maximizingPlayer)) * OPPONENT_MARBLES_WEIGHT := by
  rw [evaluate_eq b (rowsFit_of_total b hb ht)]
  have p1 := rowSum_nonneg hb.2.2.1
  have p2 := rowSum_nonneg hb.2.2.2
  have q1 := hb.1
  have q2 := hb.2.1
  simp only [Board.total] at ht
  have e1 : wrapInt (1000 * depth) = 1000 * depth := wrapInt_of_range (by omega) (by omega)
  have e2 : wrapInt (-1000 * wrapInt (-depth)) = -1000 * -depth := by
    rw [wrapInt_of_range (x := -depth) (by omega) (by omega)]
    exact wrapInt_of_range (by omega) (by omega)
  have e0 : wrapInt (b.maxPlayerMancala - b.minPlayerMancala) =
      b.maxPlayerMancala - b.minPlayerMancala := wrapInt_of_range (by omega) (by omega)
  rw [e1, e2, e0]
  simp only [SCORE_WEIGHT, PLAYER_MARBLES_WEIGHT, OPPONENT_MARBLES_WEIGHT]
  cases maximizingPlayer with
  | true =>
    simp only [Board.moverHoles, Board.opponentHoles, if_true, Bool.not_true,
      Bool.false_eq_true, if_false]
    rw [wrapInt_of_range (x := (b.maxPlayerMancala - b.minPlayerMancala) * 3)
        (by omega) (by omega),
      wrapInt_of_range (x := rowSum b.maxPlayerHoles * 1) (by omega) (by omega),
      wrapInt_of_range (x := rowSum b.minPlayerHoles * -1) (by omega) (by omega),
      wrapInt_of_range
        (x := (b.maxPlayerMancala - b.minPlayerMancala) * 3 + rowSum b.maxPlayerHoles * 1)
        (by omega) (by omega)]
    congr 2
    exact wrapInt_of_range (by omega) (by omega)
  | false =>
    simp only [Board.moverHoles, Board.opponentHoles, Bool.false_eq_true, if_false,
      Bool.not_false, if_true]
    rw [wrapInt_of_range (x := -rowSum b.minPlayerHoles) (by omega) (by omega),
      wrapInt_of_range (x := -rowSum b.maxPlayerHoles) (by omega) (by omega),
      wrapInt_of_range (x := (b.maxPlayerMancala - b.minPlayerMancala) * 3)
        (by omega) (by omega),
      wrapInt_of_range (x := -rowSum b.minPlayerHoles * 1) (by omega) (by omega),
      wrapInt_of_range (x := -rowSum b.maxPlayerHoles * -1) (by omega) (by omega),
      wrapInt_of_range
        (x := (b.maxPlayerMancala - b.minPlayerMancala) * 3 + -rowSum b.minPlayerHoles * 1)
        (by omega) (by omega)]
    congr 2
    exact wrapInt_of_range (by omega) (by omega)

theorem wellFormed_total (b : Board) (hb : b.WellFormed) : 3 * b.total ≤ 2147483647 := by
  have h := hb.2
  rw [getTotalNumberOfMarbles_eq] at h
  rw [h]
  decide

theorem evaluate_bounds (b : Board) (hb : b.WellFormed) (maximizingPlayer : Bool) (d : Nat)
    (hd : d ≤ NUMBER_OF_PREDICTED_TURNS) :
    -10000 ≤ evaluate b maximizingPlayer (d : Int) ∧
      evaluate b maximizingPlayer (d : Int) ≤ 10000 := by
  have hd2 : (d : Int) ≤ 10 := by exact_mod_cast hd
  have hd3 : (0 : Int) ≤ d := Int.natCast_nonneg d
  rw [evaluate_eq_exact b hb.1 (wellFormed_total b hb) maximizingPlayer d (by omega)
    (by omega)]
  obtain ⟨hn, ht⟩ := hb
  rw [getTotalNumberOfMarbles_eq] at ht
  have p1 := rowSum_nonneg hn.2.2.1
  have p2 := rowSum_nonneg hn.2.2.2
  have q1 := hn.1
  have q2 := hn.2.1
  simp only [Board.total] at ht
  simp only [TOTAL_NUMBER_OF_MARBLES, SCORE_WEIGHT, PLAYER_MARBLES_WEIGHT,
    OPPONENT_MARBLES_WEIGHT, NUMBER_OF_PREDICTED_TURNS] at *
  cases maximizingPlayer with
  | true =>
    simp only [Board.moverHoles, Board.opponentHoles, if_true]
    split_ifs <;> omega
  | false =>
    simp only [Board.moverHoles, Board.opponentHoles, Bool.false_eq_true, if_false]
    split_ifs <;> omega

/-! ## The reference search on a board of the game -/

theorem updateBoard_wellFormed (b : Board) (hb : b.WellFormed) (maximizingPlayer : Bool)
    (i : Fin NUMBER_OF_HOLES) : (updateBoard b maximizingPlayer i).WellFormed := by
  refine ⟨updateBoard_nonNeg b maximizingPlayer i hb.1, ?_⟩
  rw [getTotalNumberOfMarbles_eq, updateBoard_total, ← getTotalNumberOfMarbles_eq]
  · exact hb.2
  · cases maximizingPlayer with
    | true => exact hb.1.2.2.1 i
    | false => exact hb.1.2.2.2 i

/-- A position that is not over has a hole with marbles on either side. -/
theorem exists_move_of_not_gameOver (b : Board) (hb : b.NonNeg) (h : ¬ isGameOver b = true) :
    (∃ i, b.maxPlayerHoles i > 0) ∧ ∃ i, b.minPlayerHoles i > 0 := by
  rw [isGameOver_eq_true_iff, not_or] at h
  obtain ⟨h1, h2⟩ := h
  push_neg at h1 h2
  obtain ⟨i, hi⟩ := h1
  obtain ⟨j, hj⟩ := h2
  exact ⟨⟨i, lt_of_le_of_ne (hb.2.2.1 i) (Ne.symm hi)⟩,
    ⟨j, lt_of_le_of_ne (hb.2.2.2 j) (Ne.symm hj)⟩⟩

/-- The reference loop of the maximizing player over child scores in `[lo, hi]`,
started either from a best child already found or from the placeholder with a
move still ahead, ends on the score and the index of a child. -/
theorem plainMaxLoop_spec (score : Board → Bool → Int) (b : Board) (lo hi : Int)
    (hlo : INT_MIN < lo)
    (hv : ∀ i m, lo ≤ score (updateBoard b true i) m ∧ score (updateBoard b true i) m ≤ hi)
    (l : List (Fin NUMBER_OF_HOLES)) :
    ∀ best idx : Int,
      ((lo ≤ best ∧ best ≤ hi ∧ ∃ j : Fin NUMBER_OF_HOLES, idx = (j.val : Int) ∧
          b.maxPlayerHoles j > 0) ∨
        (best = INT_MIN ∧ ∃ j ∈ l, b.maxPlayerHoles j > 0)) →
      lo ≤ (plainMaxLoop score b l best idx).1 ∧ (plainMaxLoop score b l best idx).1 ≤ hi ∧
        ∃ j : Fin NUMBER_OF_HOLES, (plainMaxLoop score b l best idx).2 = (j.val : Int) ∧
          b.maxPlayerHoles j > 0 := by
  induction l with
  | nil =>
    intro best idx h
    rcases h with h | ⟨_, j, hj, _⟩
    · exact h
    · simp at hj
  | cons i rest ih =>
    intro best idx h
    unfold plainMaxLoop
    dsimp only
    by_cases hi0 : b.maxPlayerHoles i > 0
    · rw [if_pos hi0]
      have hvi := hv i (isFreeTurn i.val (b.maxPlayerHoles i))
      split
      · exact ih _ _ (Or.inl ⟨hvi.1, hvi.2, i, rfl, hi0⟩)
      · rename_i hng
        rcases h with h | ⟨hb, _⟩
        · exact ih _ _ (Or.inl h)
        · exfalso; omega
    · rw [if_neg hi0]
      rcases h with h | ⟨hb, j, hj, hj0⟩
      · exact ih _ _ (Or.inl h)
      · refine ih _ _ (Or.inr ⟨hb, j, ?_, hj0⟩)
        rcases List.mem_cons.mp hj with e | e
        · subst e; exact absurd hj0 hi0
        · exact e

theorem plainMinLoop_spec (score : Board → Bool → Int) (b : Board) (lo hi : Int)
    (hhi : hi < INT_MAX)
    (hv : ∀ i m, lo ≤ score (updateBoard b false i) m ∧ score (updateBoard b false i) m ≤ hi)
    (l : List (Fin NUMBER_OF_HOLES)) :
    ∀ best idx : Int,
      ((lo ≤ best ∧ best ≤ hi ∧ ∃ j : Fin NUMBER_OF_HOLES, idx = (j.val : Int) ∧
          b.minPlayerHoles j > 0) ∨
        (best = INT_MAX ∧ ∃ j ∈ l, b.minPlayerHoles j > 0)) →
      lo ≤ (plainMinLoop score b l best idx).1 ∧ (plainMinLoop score b l best idx).1 ≤ hi ∧
        ∃ j : Fin NUMBER_OF_HOLES, (plainMinLoop score b l best idx).2 = (j.val : Int) ∧
          b.minPlayerHoles j > 0 := by
  induction l with
  | nil =>
    intro best idx h
    rcases h with h | ⟨_, j, hj, _⟩
    · exact h
    · simp at hj
  | cons i rest ih =>
    intro best idx h
    unfold plainMinLoop
    dsimp only
    by_cases hi0 : b.minPlayerHoles i > 0
    · rw [if_pos hi0]
      have hvi := hv i (!isFreeTurn i.val (b.minPlayerHoles i))
      split
      · exact ih _ _ (Or.inl ⟨hvi.1, hvi.2, i, rfl, hi0⟩)
      · rename_i hng
        rcases h with h | ⟨hb, _⟩
        · exact ih _ _ (Or.inl h)
        · exfalso; omega
    · rw [if_neg hi0]
      rcases h with h | ⟨hb, j, hj, hj0⟩
      · exact ih _ _ (Or.inl h)
      · refine ih _ _ (Or.inr ⟨hb, j, ?_, hj0⟩)
        rcases List.mem_cons.mp hj with e | e
        · subst e; exact absurd hj0 hi0
        · exact e

/-- On a board of the game the reference score stays within `±10000` at every
depth up to the top-level one. -/
theorem plainMinimax_bounds (d : Nat) (hd : d ≤ NUMBER_OF_PREDICTED_TURNS) :
    ∀ (b : Board) (m : Bool), b.WellFormed →
      -10000 ≤ (plainMinimax b d m).1 ∧ (plainMinimax b d m).1 ≤ 10000 := by
  induction d with
  | zero =>
    intro b m hb
    exact evaluate_bounds b hb m 0 (by omega)
  | succ n ih =>
    intro b m hb
    have ih2 := ih (by omega)
    rw [plainMinimax]
    by_cases hover : isGameOver b = true
    · rw [if_pos hover]
      exact evaluate_bounds b hb m (n + 1) hd
    · rw [if_neg hover]
      obtain ⟨⟨i, hi⟩, ⟨j, hj⟩⟩ := exists_move_of_not_gameOver b hb.1 hover
      cases m with
      | true =>
        simp only [if_true]
        have := plainMaxLoop_spec (fun c m => (plainMinimax c n m).1) b (-10000) 10000
          (by decide) (fun k m => ih2 _ m (updateBoard_wellFormed b hb true k))
          (List.finRange NUMBER_OF_HOLES) INT_MIN (-1)
          (Or.inr ⟨rfl, i, List.mem_finRange i, hi⟩)
        exact ⟨this.1, this.2.1⟩
      | false =>
        simp only [Bool.false_eq_true, if_false]
        have := plainMinLoop_spec (fun c m => (plainMinimax c n m).1) b (-10000) 10000
          (by decide) (fun k m => ih2 _ m (updateBoard_wellFormed b hb false k))
          (List.finRange NUMBER_OF_HOLES) INT_MAX (-1)
          (Or.inr ⟨rfl, j, List.mem_finRange j, hj⟩)
        exact ⟨this.1, this.2.1⟩

/-- At a node that is not a leaf, the reference search selects a hole of the
mover that holds marbles. -/
theorem plainMinimax_index (n : Nat) (hn : n + 1 ≤ NUMBER_OF_PREDICTED_TURNS) (b : Board)
    (m : Bool) (hb : b.WellFormed) (hover : ¬ isGameOver b = true) :
    ∃ j : Fin NUMBER_OF_HOLES, (plainMinimax b (n + 1) m).2 = (j.val : Int) ∧
      b.moverHoles m j > 0 := by
  have ih2 := plainMinimax_bounds n (by omega)
  rw [plainMinimax, if_neg hover]
  obtain ⟨⟨i, hi⟩, ⟨j, hj⟩⟩ := exists_move_of_not_gameOver b hb.1 hover
  cases m with
  | true =>
    simp only [if_true]
    exact (plainMaxLoop_spec (fun c m => (plainMinimax c n m).1) b (-10000) 10000
      (by decide) (fun k m => ih2 _ m (updateBoard_wellFormed b hb true k))
      (List.finRange NUMBER_OF_HOLES) INT_MIN (-1)
      (Or.inr ⟨rfl, i, List.mem_finRange i, hi⟩)).2.2
  | false =>
    simp only [Bool.false_eq_true, if_false]
    exact (plainMinLoop_spec (fun c m => (plainMinimax c n m).1) b (-10000) 10000
      (by decide) (fun k m => ih2 _ m (updateBoard_wellFormed b hb false k))
      (List.finRange NUMBER_OF_HOLES) INT_MAX (-1)
      (Or.inr ⟨rfl, j, List.mem_finRange j, hj⟩)).2.2

/-! ## `minimax` at the root against the reference search -/

theorem minimax_eq_locals (b : Board) (d : Nat) (alpha beta : Int) (m : Bool) :
    minimax b d alpha beta m =
      if isGameOver b = true ∨ d = 0 then (minimaxLocals b d alpha beta m).1
      else if d = NUMBER_OF_PREDICTED_TURNS then (minimaxLocals b d alpha beta m).2
      else (minimaxLocals b d alpha beta m).1 := by
  cases d with
  | zero => simp [minimax, minimaxLocals]
  | succ n =>
    rw [minimax, minimaxLocals]
    by_cases hover : isGameOver b = true
    · simp [hover]
    · cases m <;> simp [hover]

/-- Called with the full window on a board of the game, at a depth up to the
top-level one, `minimax` leaves its loop with the score and the index of the
reference search. -/
theorem minimaxLocals_eq_plain (b : Board) (hb : b.WellFormed) (d : Nat)
    (hd : d ≤ NUMBER_OF_PREDICTED_TURNS) (m : Bool) :
    minimaxLocals b d INT_MIN INT_MAX m = plainMinimax b d m := by
  cases d with
  | zero => rfl
  | succ n =>
    rw [minimaxLocals, plainMinimax]
    by_cases hover : isGameOver b = true
    · rw [if_pos hover, if_pos hover]
    · rw [if_neg hover, if_neg hover]
      have hfs := minimax_failSoft n (by omega)
      have hbd := plainMinimax_bounds n (by omega)
      cases m with
      | true =>
        simp only [if_true]
        exact maxLoop_root (fun b a c m => minimax b n a c m)
          (fun c m => (plainMinimax c n m).1) b
          (fun c a d m ha had hd => hfs c a d m ha had hd)
          (fun i m => lt_of_le_of_lt (hbd _ m (updateBoard_wellFormed b hb true i)).2
            (by decide))
          _ INT_MIN (-1) (le_refl _) (by decide)
      | false =>
        simp only [Bool.false_eq_true, if_false]
        exact minLoop_root (fun b a c m => minimax b n a c m)
          (fun c m => (plainMinimax c n m).1) b
          (fun c a d m ha had hd => hfs c a d m ha had hd)
          (fun i m => lt_of_lt_of_le (by decide)
            (hbd _ m (updateBoard_wellFormed b hb false i)).1)
          _ INT_MAX (-1) (by decide) (le_refl _)

theorem minimax_eq_plainAnswer (b : Board) (hb : b.WellFormed) (d : Nat)
    (hd : d ≤ NUMBER_OF_PREDICTED_TURNS) (m : Bool) :
    minimax b d INT_MIN INT_MAX m = plainAnswer b d m := by
  rw [minimax_eq_locals, minimaxLocals_eq_plain b hb d hd m]
  rfl

/-- C2 (alpha-beta equivalence), for depths up to the top-level one.  On a board
with non-negative entries totalling 48 marbles, for either side and every depth
`0 ≤ d ≤ NUMBER_OF_PREDICTED_TURNS = 10`, `minimax` called with `alpha = INT_MIN`
and `beta = INT_MAX` returns what the unpruned reference search answers (the
propagated score, or at `d = 10` the index of the best child), and the pair
(score, index) it holds when it leaves its loop is the pair of the reference
search. -/
theorem minimax_alpha_beta_equivalence (b : Board) (hb : b.NonNeg)
    (h48 : getTotalNumberOfMarbles b = TOTAL_NUMBER_OF_MARBLES) (maximizingPlayer : Bool)
    (d : Nat) (hd : d ≤ NUMBER_OF_PREDICTED_TURNS) :
    minimax b d INT_MIN INT_MAX maximizingPlayer = plainAnswer b d maximizingPlayer ∧
      minimaxLocals b d INT_MIN INT_MAX maximizingPlayer =
        plainMinimax b d maximizingPlayer :=
  ⟨minimax_eq_plainAnswer b ⟨hb, h48⟩ d hd maximizingPlayer,
    minimaxLocals_eq_plain b ⟨hb, h48⟩ d hd maximizingPlayer⟩

theorem minimax_alpha_beta_equivalence_witness :
    (mkBoard 0 0 [4, 4, 4, 4, 4, 4] [4, 4, 4, 4, 4, 4]).NonNeg ∧
      getTotalNumberOfMarbles (mkBoard 0 0 [4, 4, 4, 4, 4, 4] [4, 4, 4, 4, 4, 4]) =
        TOTAL_NUMBER_OF_MARBLES ∧
      3 ≤ NUMBER_OF_PREDICTED_TURNS ∧
      minimax (mkBoard 0 0 [4, 4, 4, 4, 4, 4] [4, 4, 4, 4, 4, 4]) 3 INT_MIN INT_MAX true =
        plainAnswer (mkBoard 0 0 [4, 4, 4, 4, 4, 4] [4, 4, 4, 4, 4, 4]) 3 true :=
  ⟨by decide, by decide, by decide,
    (minimax_alpha_beta_equivalence (mkBoard 0 0 [4, 4, 4, 4, 4, 4] [4, 4, 4, 4, 4, 4])
      (by decide) (by decide) true 3 (by decide)).1⟩

/-- C2 as stated, for every depth, fails at depth 11.  On the board with stores
23 and 23, one marble in the maximizing player's hole `3` and one in the
minimizing player's hole `5` (48 marbles), the only child of the root is a node
of depth 10 that is not terminal; it returns the index `5` of its best hole
(line 440) where a score is expected, so `minimax` at depth 11 returns `5`,
while the reference search propagates the score `-2`. -/
theorem minimax_depth_eleven_counterexample :
    (mkBoard 23 23 [0, 0, 0, 1, 0, 0] [0, 0, 0, 0, 0, 1]).NonNeg ∧
      getTotalNumberOfMarbles (mkBoard 23 23 [0, 0, 0, 1, 0, 0] [0, 0, 0, 0, 0, 1]) =
        TOTAL_NUMBER_OF_MARBLES ∧
      minimax (mkBoard 23 23 [0, 0, 0, 1, 0, 0] [0, 0, 0, 0, 0, 1]) 11 INT_MIN INT_MAX true
        = 5 ∧
      plainAnswer (mkBoard 23 23 [0, 0, 0, 1, 0, 0] [0, 0, 0, 0, 0, 1]) 11 true = -2 ∧
      minimax (mkBoard 23 23 [0, 0, 0, 1, 0, 0] [0, 0, 0, 0, 0, 1]) 11 INT_MIN INT_MAX true
        ≠ plainAnswer (mkBoard 23 23 [0, 0, 0, 1, 0, 0] [0, 0, 0, 0, 0, 1]) 11 true := by
  decide

/-- C3 (root move legality).  On a board with non-negative entries totalling 48
marbles on which the game is not over, for either side,
`minimax(board, 10, INT_MIN, INT_MAX, side)` returns an index `i` with
`0 ≤ i ≤ 5` (a `Fin 6`) such that the mover's hole `i` is not empty; the value
printed, `i + 1`, lies in `1..6`. -/
theorem minimax_root_move_legal (b : Board) (hb : b.NonNeg)
    (h48 : getTotalNumberOfMarbles b = TOTAL_NUMBER_OF_MARBLES)
    (hover : isGameOver b = false) (maximizingPlayer : Bool) :
    ∃ i : Fin NUMBER_OF_HOLES,
      minimax b NUMBER_OF_PREDICTED_TURNS INT_MIN INT_MAX maximizingPlayer = (i.val : Int) ∧
        b.moverHoles maximizingPlayer i > 0 ∧
        1 ≤ minimax b NUMBER_OF_PREDICTED_TURNS INT_MIN INT_MAX maximizingPlayer + 1 ∧
        minimax b NUMBER_OF_PREDICTED_TURNS INT_MIN INT_MAX maximizingPlayer + 1 ≤ 6 := by
  have hne : ¬ isGameOver b = true := by simp [hover]
  obtain ⟨j, hj, hpos⟩ := plainMinimax_index 9 (by decide) b maximizingPlayer ⟨hb, h48⟩ hne
  have heq := minimax_eq_plainAnswer b ⟨hb, h48⟩ NUMBER_OF_PREDICTED_TURNS (le_refl _)
    maximizingPlayer
  have hans : plainAnswer b NUMBER_OF_PREDICTED_TURNS maximizingPlayer =
      (plainMinimax b NUMBER_OF_PREDICTED_TURNS maximizingPlayer).2 := by
    simp [plainAnswer, hover]
  rw [hans] at heq
  have hval : minimax b NUMBER_OF_PREDICTED_TURNS INT_MIN INT_MAX maximizingPlayer =
      (j.val : Int) := heq.trans hj
  refine ⟨j, hval, hpos, ?_, ?_⟩
  · rw [hval]; omega
  · rw [hval]; have : j.val < 6 := j.isLt; omega

theorem minimax_root_move_legal_witness :
    (mkBoard 0 0 [4, 4, 4, 4, 4, 4] [4, 4, 4, 4, 4, 4]).NonNeg ∧
      getTotalNumberOfMarbles (mkBoard 0 0 [4, 4, 4, 4, 4, 4] [4, 4, 4, 4, 4, 4]) =
        TOTAL_NUMBER_OF_MARBLES ∧
      isGameOver (mkBoard 0 0 [4, 4, 4, 4, 4, 4] [4, 4, 4, 4, 4, 4]) = false ∧
      ∃ i : Fin NUMBER_OF_HOLES,
        minimax (mkBoard 0 0 [4, 4, 4, 4, 4, 4] [4, 4, 4, 4, 4, 4]) NUMBER_OF_PREDICTED_TURNS
            INT_MIN INT_MAX true = (i.val : Int) ∧
          (mkBoard 0 0 [4, 4, 4, 4, 4, 4] [4, 4, 4, 4, 4, 4]).moverHoles true i > 0 ∧
          1 ≤ minimax (mkBoard 0 0 [4, 4, 4, 4, 4, 4] [4, 4, 4, 4, 4, 4])
            NUMBER_OF_PREDICTED_TURNS INT_MIN INT_MAX true + 1 ∧
          minimax (mkBoard 0 0 [4, 4, 4, 4, 4, 4] [4, 4, 4, 4, 4, 4])
            NUMBER_OF_PREDICTED_TURNS INT_MIN INT_MAX true + 1 ≤ 6 :=
  ⟨by decide, by decide, by decide,
    minimax_root_move_legal (mkBoard 0 0 [4, 4, 4, 4, 4, 4] [4, 4, 4, 4, 4, 4])
      (by decide) (by decide) (by decide) true⟩

/-! ## The loop counters are never exhausted

Each loop of the embedding recurses on a counter.  The lemmas below show that
the counter given by the caller is large enough: the loop leaves through its
own condition, and a larger counter gives the same result. -/

theorem fillOwnMax_exit (fuel : Nat) :
    ∀ s : SowState, NUMBER_OF_HOLES - s.holeIndex ≤ fuel →
      ¬ ((fillOwnMax fuel s).holeIndex < NUMBER_OF_HOLES ∧ (fillOwnMax fuel s).marbles > 0) := by
  induction fuel with
  | zero =>
    intro s h
    simp only [fillOwnMax]
    omega
  | succ n ih =>
    intro s h
    unfold fillOwnMax
    split
    · apply ih
      simp only
      omega
    · assumption

theorem fillEnemyMax_exit (fuel : Nat) :
    ∀ s : SowState, NUMBER_OF_HOLES - s.holeIndex ≤ fuel →
      ¬ ((fillEnemyMax fuel s).holeIndex < NUMBER_OF_HOLES ∧
        (fillEnemyMax fuel s).marbles > 0) := by
  induction fuel with
  | zero =>
    intro s h
    simp only [fillEnemyMax]
    omega
  | succ n ih =>
    intro s h
    unfold fillEnemyMax
    split
    · apply ih
      simp only
      omega
    · assumption

theorem sowMax_succ (fuel : Nat) (s : SowState) :
    sowMax (fuel + 1) s =
      if s.marbles > 0 then
        if (fillOwnMax NUMBER_OF_HOLES s).marbles ≤ 0 then fillOwnMax NUMBER_OF_HOLES s
        else if (fillOwnMax NUMBER_OF_HOLES s).marbles - 1 ≤ 0 then
          { fillOwnMax NUMBER_OF_HOLES s with
            board := { (fillOwnMax NUMBER_OF_HOLES s).board with
              maxPlayerMancala := (fillOwnMax NUMBER_OF_HOLES s).board.maxPlayerMancala + 1 }
            marbles := (fillOwnMax NUMBER_OF_HOLES s).marbles - 1 }
        else
          sowMax fuel
            (fillEnemyMax NUMBER_OF_HOLES
              { board := { (fillOwnMax NUMBER_OF_HOLES s).board with
                  maxPlayerMancala := (fillOwnMax NUMBER_OF_HOLES s).board.maxPlayerMancala + 1 }
                holeIndex := 0
                marbles := (fillOwnMax NUMBER_OF_HOLES s).marbles - 1 })
      else s := rfl

/-- More iterations allowed than marbles in hand do not change the sowing. -/
theorem sowMax_fuel (fuel : Nat) :
    ∀ s : SowState, s.marbles ≤ fuel → sowMax (fuel + 1) s = sowMax fuel s := by
  induction fuel with
  | zero =>
    intro s h
    rw [sowMax_succ, if_neg (by simpa using h)]
    rfl
  | succ n ih =>
    intro s h
    conv_lhs => rw [sowMax_succ (n + 1)]
    conv_rhs => rw [sowMax_succ n]
    have h1 := (fillOwnMax_rel NUMBER_OF_HOLES s).2.1
    split_ifs
    · rfl
    · rfl
    · apply ih
      refine le_trans (fillEnemyMax_rel NUMBER_OF_HOLES _).2.1 ?_
      show (fillOwnMax NUMBER_OF_HOLES s).marbles - 1 ≤ (n : Int)
      push_cast at h
      omega
    · rfl

/-- The sowing loop of the minimizing player leaves through its own condition. -/
theorem sowMin_marbles (fuel : Nat) (s : SowState) (h : s.marbles ≤ fuel) :
    (sowMin fuel s).marbles ≤ 0 := by
  rw [sowMin_eq]
  exact sowMax_marbles fuel s.swap h

theorem skipHoles_snd_le (fuel : Nat) :
    ∀ (holeIndex : Nat) (marbles : Int), (skipHoles fuel (holeIndex, marbles)).2 ≤ marbles := by
  induction fuel with
  | zero => intro holeIndex marbles; exact le_refl _
  | succ n ih =>
    intro holeIndex marbles
    unfold skipHoles
    split
    · have := ih (holeIndex + 1) (marbles - 1)
      omega
    · exact le_refl _

theorem skipHoles_exit (fuel : Nat) :
    ∀ (holeIndex : Nat) (marbles : Int), NUMBER_OF_HOLES - holeIndex ≤ fuel →
      ¬ ((skipHoles fuel (holeIndex, marbles)).1 < NUMBER_OF_HOLES ∧
        (skipHoles fuel (holeIndex, marbles)).2 > 0) := by
  induction fuel with
  | zero =>
    intro holeIndex marbles h
    simp only [skipHoles]
    omega
  | succ n ih =>
    intro holeIndex marbles h
    unfold skipHoles
    split
    · apply ih
      omega
    · assumption

theorem isFreeTurnLoop_succ (fuel holeIndex : Nat) (marbles : Int) :
    isFreeTurnLoop (fuel + 1) holeIndex marbles =
      if marbles > 0 then
        if (skipHoles NUMBER_OF_HOLES (holeIndex, marbles)).2 ≤ 0 then false
        else if (skipHoles NUMBER_OF_HOLES (holeIndex, marbles)).2 = 1 then true
        else
          isFreeTurnLoop fuel 0
            (skipHoles NUMBER_OF_HOLES
              (0, (skipHoles NUMBER_OF_HOLES (holeIndex, marbles)).2 - 1)).2
      else false := rfl

/-- More iterations allowed than marbles in hand do not change `isFreeTurn`. -/
theorem isFreeTurnLoop_fuel (fuel : Nat) :
    ∀ (holeIndex : Nat) (marbles : Int), marbles ≤ fuel →
      isFreeTurnLoop (fuel + 1) holeIndex marbles = isFreeTurnLoop fuel holeIndex marbles := by
  induction fuel with
  | zero =>
    intro holeIndex marbles h
    rw [isFreeTurnLoop_succ, if_neg (by simpa using h)]
    rfl
  | succ n ih =>
    intro holeIndex marbles h
    conv_lhs => rw [isFreeTurnLoop_succ (n + 1)]
    conv_rhs => rw [isFreeTurnLoop_succ n]
    have h1 := skipHoles_snd_le NUMBER_OF_HOLES holeIndex marbles
    split_ifs
    · rfl
    · rfl
    · apply ih
      have h3 := skipHoles_snd_le NUMBER_OF_HOLES 0
        ((skipHoles NUMBER_OF_HOLES (holeIndex, marbles)).2 - 1)
      push_cast at h
      omega
    · rfl

/-! ## `evaluate`: the two shortcuts and the linear heuristic -/

/-- C13 (decisive-loss score) fails on the code.  On the board with stores 10
and 25, rows `4 4 2 0 0 0` and `3 0 0 0 0 0` (48 marbles, game not over), the
decisive-win condition does not hold and `minPlayerMancala = 25 > 24`; at depth
10 `evaluate` returns `-1000 * -depth = 10000` (line 337), the score of a
decisive win, not `-1000 * 10`. -/
theorem evaluate_decisive_loss_sign :
    isGameOver (mkBoard 10 25 [4, 4, 2, 0, 0, 0] [3, 0, 0, 0, 0, 0]) = false ∧
      ¬ ((mkBoard 10 25 [4, 4, 2, 0, 0, 0] [3, 0, 0, 0, 0, 0]).maxPlayerMancala >
          TOTAL_NUMBER_OF_MARBLES / 2) ∧
      (mkBoard 10 25 [4, 4, 2, 0, 0, 0] [3, 0, 0, 0, 0, 0]).minPlayerMancala >
          TOTAL_NUMBER_OF_MARBLES / 2 ∧
      evaluate (mkBoard 10 25 [4, 4, 2, 0, 0, 0] [3, 0, 0, 0, 0, 0]) true 10 = 10000 ∧
      evaluate (mkBoard 10 25 [4, 4, 2, 0, 0, 0] [3, 0, 0, 0, 0, 0]) false 10 = 10000 ∧
      evaluate (mkBoard 10 25 [4, 4, 2, 0, 0, 0] [3, 0, 0, 0, 0, 0]) true 10 ≠ -1000 * 10 := by
  decide

/-- C14 (decisive-win score), where `int` does not overflow.  For every board
with non-negative holes whose two row totals are at most `INT_MAX`, every
perspective flag and every depth `d` with `-2147483 ≤ d ≤ 2147483` (so that
`1000 * d` is an `int`), if the perspective side's hole total is greater than
the other side's hole total and `isGameOver` is `true`, or `maxPlayerMancala >
24`, then `evaluate` returns `1000 * d`. -/
theorem evaluate_decisive_win (b : Board) (hrows : b.RowsFit) (maximizingPlayer : Bool)
    (depth : Int) (hd1 : -2147483 ≤ depth) (hd2 : depth ≤ 2147483)
    (h : (rowSum (b.moverHoles maximizingPlayer) > rowSum (b.opponentHoles maximizingPlayer) ∧
        isGameOver b = true) ∨ b.maxPlayerMancala > 24) :
    evaluate b maximizingPlayer depth = 1000 * depth := by
  rw [evaluate_eq b hrows, if_pos]
  · exact wrapInt_of_range (by omega) (by omega)
  · rcases h with h | h
    · exact Or.inl h
    · exact Or.inr (by simpa [TOTAL_NUMBER_OF_MARBLES] using h)

theorem evaluate_decisive_win_witness :
    (mkBoard 20 25 [0, 0, 0, 0, 0, 0] [3, 0, 0, 0, 0, 0]).RowsFit ∧
      (-2147483 : Int) ≤ 7 ∧ (7 : Int) ≤ 2147483 ∧
      ((rowSum ((mkBoard 20 25 [0, 0, 0, 0, 0, 0] [3, 0, 0, 0, 0, 0]).moverHoles false) >
          rowSum ((mkBoard 20 25 [0, 0, 0, 0, 0, 0] [3, 0, 0, 0, 0, 0]).opponentHoles false) ∧
        isGameOver (mkBoard 20 25 [0, 0, 0, 0, 0, 0] [3, 0, 0, 0, 0, 0]) = true) ∨
      (mkBoard 20 25 [0, 0, 0, 0, 0, 0] [3, 0, 0, 0, 0, 0]).maxPlayerMancala > 24) ∧
      evaluate (mkBoard 20 25 [0, 0, 0, 0, 0, 0] [3, 0, 0, 0, 0, 0]) false 7 = 1000 * 7 :=
  ⟨by decide, by decide, by decide, Or.inl (by decide),
    evaluate_decisive_win (mkBoard 20 25 [0, 0, 0, 0, 0, 0] [3, 0, 0, 0, 0, 0]) (by decide)
      false 7 (by decide) (by decide) (Or.inl (by decide))⟩

/-- C14 as stated, for every board and depth, fails where `int` overflows.  On
the 48-marble board with stores 30 and 10 (`maxPlayerMancala > 24`) at depth
2147484 the product `1000 * depth` wraps and `evaluate` returns `-2147483296`.
And with 2147483647 and 1 marbles in two holes of the maximizing player against
an empty row of the minimizing player, the count `playerMarbles` wraps to
`-2147483648`, the test of line 328 fails although the perspective side holds
more marbles and the game is over, and `evaluate` returns `-2147483648` at
depth 10. -/
theorem evaluate_decisive_win_counterexample :
    (mkBoard 30 10 [0, 0, 0, 0, 0, 0] [8, 0, 0, 0, 0, 0]).maxPlayerMancala > 24 ∧
      evaluate (mkBoard 30 10 [0, 0, 0, 0, 0, 0] [8, 0, 0, 0, 0, 0]) true 2147484 =
        -2147483296 ∧
      evaluate (mkBoard 30 10 [0, 0, 0, 0, 0, 0] [8, 0, 0, 0, 0, 0]) true 2147484 ≠
        1000 * 2147484 ∧
      rowSum ((mkBoard 0 0 [2147483647, 1, 0, 0, 0, 0] [0, 0, 0, 0, 0, 0]).moverHoles true) >
        rowSum ((mkBoard 0 0 [2147483647, 1, 0, 0, 0, 0] [0, 0, 0, 0, 0, 0]).opponentHoles
          true) ∧
      isGameOver (mkBoard 0 0 [2147483647, 1, 0, 0, 0, 0] [0, 0, 0, 0, 0, 0]) = true ∧
      evaluate (mkBoard 0 0 [2147483647, 1, 0, 0, 0, 0] [0, 0, 0, 0, 0, 0]) true 10 =
        -2147483648 ∧
      evaluate (mkBoard 0 0 [2147483647, 1, 0, 0, 0, 0] [0, 0, 0, 0, 0, 0]) true 10 ≠
        1000 * 10 := by
  decide

/-- C15 (the linear heuristic is expressed from side A's orientation), where
`int` does not overflow.  For every board with non-negative entries and at most
715827882 marbles in all (three times the total is at most `INT_MAX`), and every
depth, if neither shortcut of `evaluate` fires then, for both values of the
perspective flag, `evaluate` returns `3 * (maxPlayerMancala - minPlayerMancala) +
sum(maxPlayerHoles) - sum(minPlayerHoles)`. -/
theorem evaluate_linear (b : Board) (hb : b.NonNeg) (ht : 3 * b.total ≤ 2147483647)
    (maximizingPlayer : Bool) (depth : Int)
    (hwin : ¬ ((rowSum (b.moverHoles maximizingPlayer) >
        rowSum (b.opponentHoles maximizingPlayer) ∧ isGameOver b = true) ∨
      b.maxPlayerMancala > 24))
    (hloss : ¬ ((rowSum (b.opponentHoles maximizingPlayer) <
        rowSum (b.moverHoles maximizingPlayer) ∧ isGameOver b = true) ∨
      b.minPlayerMancala > 24)) :
    evaluate b maximizingPlayer depth =
      3 * (b.maxPlayerMancala - b.minPlayerMancala) + rowSum b.maxPlayerHoles -
        rowSum b.minPlayerHoles := by
  have e : TOTAL_NUMBER_OF_MARBLES / 2 = 24 := by decide
  have hexact := evaluate_eq_exact b hb ht maximizingPlayer 0 (by decide) (by decide)
  rw [e, if_neg hwin, if_neg hloss] at hexact
  rw [evaluate_eq b (rowsFit_of_total b hb ht), e, if_neg hwin, if_neg hloss]
  rw [evaluate_eq b (rowsFit_of_total b hb ht), e, if_neg hwin, if_neg hloss] at hexact
  rw [hexact]
  cases maximizingPlayer with
  | true =>
    simp only [Board.moverHoles, Board.opponentHoles, if_true, Bool.not_true,
      Bool.false_eq_true, if_false, SCORE_WEIGHT, PLAYER_MARBLES_WEIGHT,
      OPPONENT_MARBLES_WEIGHT]
    ring
  | false =>
    simp only [Board.moverHoles, Board.opponentHoles, Bool.false_eq_true, if_false,
      Bool.not_false, if_true, SCORE_WEIGHT, PLAYER_MARBLES_WEIGHT, OPPONENT_MARBLES_WEIGHT]
    ring

theorem evaluate_linear_witness :
    (mkBoard 0 0 [4, 4, 4, 4, 4, 4] [4, 4, 4, 4, 4, 4]).NonNeg ∧
      3 * (mkBoard 0 0 [4, 4, 4, 4, 4, 4] [4, 4, 4, 4, 4, 4]).total ≤ 2147483647 ∧
      ¬ ((rowSum ((mkBoard 0 0 [4, 4, 4, 4, 4, 4] [4, 4, 4, 4, 4, 4]).moverHoles false) >
          rowSum ((mkBoard 0 0 [4, 4, 4, 4, 4, 4] [4, 4, 4, 4, 4, 4]).opponentHoles false) ∧
        isGameOver (mkBoard 0 0 [4, 4, 4, 4, 4, 4] [4, 4, 4, 4, 4, 4]) = true) ∨
      (mkBoard 0 0 [4, 4, 4, 4, 4, 4] [4, 4, 4, 4, 4, 4]).maxPlayerMancala > 24) ∧
      evaluate (mkBoard 0 0 [4, 4, 4, 4, 4, 4] [4, 4, 4, 4, 4, 4]) false 3 =
        3 * ((mkBoard 0 0 [4, 4, 4, 4, 4, 4] [4, 4, 4, 4, 4, 4]).maxPlayerMancala -
            (mkBoard 0 0 [4, 4, 4, 4, 4, 4] [4, 4, 4, 4, 4, 4]).minPlayerMancala) +
          rowSum (mkBoard 0 0 [4, 4, 4, 4, 4, 4] [4, 4, 4, 4, 4, 4]).maxPlayerHoles -
          rowSum (mkBoard 0 0 [4, 4, 4, 4, 4, 4] [4, 4, 4, 4, 4, 4]).minPlayerHoles :=
  ⟨by decide, by decide, by decide,
    evaluate_linear (mkBoard 0 0 [4, 4, 4, 4, 4, 4] [4, 4, 4, 4, 4, 4]) (by decide)
      (by decide) false 3 (by decide) (by decide)⟩

/-- C15 as stated, for every board, fails where `int` overflows.  On the board
with stores 24 and 0, 2147483647 marbles in the maximizing player's hole `0` and
one marble in the minimizing player's hole `0`, seen from the minimizing player,
neither shortcut fires (the game is not over, no store exceeds 24) and the last
addition of line 346, `71 + 2147483647`, wraps: `evaluate` returns
`-2147483578`, not `3 * 24 + 2147483647 - 1`.  With the maximizing player's row
empty and 2147483647 and 1 marbles in two holes of the minimizing player, seen
from the maximizing player, the count `opponentMarbles` wraps negative, the test
of line 328 fires and `evaluate` returns `1000 * 10`. -/
theorem evaluate_linear_counterexample :
    (mkBoard 24 0 [2147483647, 0, 0, 0, 0, 0] [1, 0, 0, 0, 0, 0]).NonNeg ∧
      isGameOver (mkBoard 24 0 [2147483647, 0, 0, 0, 0, 0] [1, 0, 0, 0, 0, 0]) = false ∧
      ¬ ((mkBoard 24 0 [2147483647, 0, 0, 0, 0, 0] [1, 0, 0, 0, 0, 0]).maxPlayerMancala > 24) ∧
      ¬ ((mkBoard 24 0 [2147483647, 0, 0, 0, 0, 0] [1, 0, 0, 0, 0, 0]).minPlayerMancala > 24) ∧
      evaluate (mkBoard 24 0 [2147483647, 0, 0, 0, 0, 0] [1, 0, 0, 0, 0, 0]) false 10 =
        -2147483578 ∧
      evaluate (mkBoard 24 0 [2147483647, 0, 0, 0, 0, 0] [1, 0, 0, 0, 0, 0]) false 10 ≠
        3 * ((mkBoard 24 0 [2147483647, 0, 0, 0, 0, 0] [1, 0, 0, 0, 0, 0]).maxPlayerMancala -
            (mkBoard 24 0 [2147483647, 0, 0, 0, 0, 0] [1, 0, 0, 0, 0, 0]).minPlayerMancala) +
          rowSum (mkBoard 24 0 [2147483647, 0, 0, 0, 0, 0] [1, 0, 0, 0, 0, 0]).maxPlayerHoles -
          rowSum (mkBoard 24 0 [2147483647, 0, 0, 0, 0, 0] [1, 0, 0, 0, 0, 0]).minPlayerHoles ∧
      ¬ (rowSum ((mkBoard 0 0 [0, 0, 0, 0, 0, 0] [2147483647, 1, 0, 0, 0, 0]).moverHoles true) >
        rowSum ((mkBoard 0 0 [0, 0, 0, 0, 0, 0] [2147483647, 1, 0, 0, 0, 0]).opponentHoles
          true)) ∧
      evaluate (mkBoard 0 0 [0, 0, 0, 0, 0, 0] [2147483647, 1, 0, 0, 0, 0]) true 10 =
        10000 := by
  decide

/-! ## Capture, both stores; the symmetry of the two branches -/

/-- C20 (side symmetry of the transition).  With `swap b` the board whose stores
and rows are exchanged, `updateBoard (swap b) false i = swap (updateBoard b true
i)` for every board and hole index: the branch of the minimizing player, which
assigns the stolen marbles with `=`, and the branch of the maximizing player,
which adds them with `+=`, are the same rule. -/
theorem updateBoard_side_symmetry (b : Board) (i : Fin NUMBER_OF_HOLES) :
    updateBoard b.swap false i = (updateBoard b true i).swap := by
  rw [updateBoard_false]
  rfl

/-! ## What `minimax` scores at a finished game -/

/-- C12 (leaf scoring uses the finalized board) fails on the code.  On the
finished board with stores 20 and 24, the maximizing player's row empty and 4
marbles in the minimizing player's hole `0`, `minimax` returns the evaluation
of its own board, `-16`; the evaluation of the finalized board (stores 20 and
28, all holes `0`) is `10000`.  `isGameOver` receives its board by value, so
what it sweeps into the stores (lines 209-222) is lost when it returns. -/
theorem minimax_scores_unfinalized_board :
    isGameOver (mkBoard 20 24 [0, 0, 0, 0, 0, 0] [4, 0, 0, 0, 0, 0]) = true ∧
      minimax (mkBoard 20 24 [0, 0, 0, 0, 0, 0] [4, 0, 0, 0, 0, 0]) 10 INT_MIN INT_MAX true
        = -16 ∧
      (isGameOverState (mkBoard 20 24 [0, 0, 0, 0, 0, 0] [4, 0, 0, 0, 0, 0])).2.minPlayerMancala
        = 28 ∧
      evaluate (isGameOverState (mkBoard 20 24 [0, 0, 0, 0, 0, 0] [4, 0, 0, 0, 0, 0])).2 true 10
        = 10000 ∧
      minimax (mkBoard 20 24 [0, 0, 0, 0, 0, 0] [4, 0, 0, 0, 0, 0]) 10 INT_MIN INT_MAX true ≠
        evaluate (isGameOverState (mkBoard 20 24 [0, 0, 0, 0, 0, 0] [4, 0, 0, 0, 0, 0])).2
          true 10 := by
  decide

/-! ## `isFreeTurn` against the sowing -/

/-- C11 (the free-turn prediction agrees with the sowing) fails on the code.
With 8 marbles in hole `5` of the maximizing player, `updateBoard` puts the last
marble in the mover's store (the store ends at 2, and at 1 had the hole held 7
marbles), while `isFreeTurn(5, 8)` is `false`.  With 14 marbles it is the other
way round: `isFreeTurn(5, 14)` is `true` and the last marble falls in the
opponent's hole `5` (the store ends at 2, as with 13 marbles). -/
theorem isFreeTurn_disagrees_with_updateBoard :
    isFreeTurn 5 8 = false ∧
      (updateBoard (mkBoard 0 0 [4, 4, 4, 4, 0, 8] [4, 4, 4, 4, 4, 4]) true 5).maxPlayerMancala
        = 2 ∧
      (updateBoard (mkBoard 0 0 [4, 4, 4, 4, 0, 7] [4, 4, 4, 4, 4, 4]) true 5).maxPlayerMancala
        = 1 ∧
      isFreeTurn 5 14 = true ∧
      (updateBoard (mkBoard 0 0 [4, 4, 4, 4, 0, 14] [4, 4, 4, 4, 4, 2]) true
        5).maxPlayerMancala = 2 ∧
      (updateBoard (mkBoard 0 0 [4, 4, 4, 4, 0, 13] [4, 4, 4, 4, 4, 2]) true
        5).maxPlayerMancala = 2 ∧
      rowList (updateBoard (mkBoard 0 0 [4, 4, 4, 4, 0, 14] [4, 4, 4, 4, 4, 2]) true
        5).minPlayerHoles = [6, 6, 6, 6, 6, 4] := by
  decide

/-! ## The closed form of `isFreeTurn` -/

/-- What one row loop of `isFreeTurn` leaves in `marbles`. -/
theorem skipHoles_snd (fuel : Nat) :
    ∀ (holeIndex : Nat) (marbles : Int), holeIndex ≤ 6 → 6 - holeIndex ≤ fuel →
      (skipHoles fuel (holeIndex, marbles)).2 =
        if marbles ≤ 0 then marbles else max (marbles - ((6 : Int) - (holeIndex : Int))) 0 := by
  induction fuel with
  | zero =>
    intro holeIndex marbles h1 h2
    simp only [skipHoles]
    split_ifs <;> omega
  | succ n ih =>
    intro holeIndex marbles h1 h2
    unfold skipHoles
    split
    · rename_i hc
      have hc1 : holeIndex < 6 := hc.1
      rw [ih (holeIndex + 1) (marbles - 1) (by omega) (by omega)]
      push_cast
      split_ifs <;> omega
    · rename_i hc
      have hc' : ¬ (holeIndex < 6 ∧ marbles > 0) := hc
      simp only
      split_ifs <;> omega

/-- From the start of the mover's row, the last of `n` marbles falls in the
store exactly when `n` is `7` modulo the 13 positions of a lap. -/
theorem isFreeTurnLoop_zero (fuel : Nat) :
    ∀ n : Int, n ≤ fuel → (isFreeTurnLoop fuel 0 n = true ↔ 1 ≤ n ∧ n % 13 = 7) := by
  induction fuel with
  | zero =>
    intro n h
    simp only [isFreeTurnLoop]
    constructor
    · intro h0; exact absurd h0 (by decide)
    · intro h0; push_cast at h; omega
  | succ k ih =>
    intro n h
    rw [isFreeTurnLoop_succ]
    by_cases hn : n > 0
    · rw [if_pos hn, skipHoles_snd 6 0 n (by omega) (by omega)]
      have e1 : (if n ≤ 0 then n else max (n - ((6 : Int) - ((0 : Nat) : Int))) 0) =
          max (n - 6) 0 := by
        rw [if_neg (by omega)]; simp
      rw [e1]
      by_cases h1 : max (n - 6) 0 ≤ 0
      · rw [if_pos h1]
        constructor
        · intro h0; exact absurd h0 (by decide)
        · intro h0; omega
      · rw [if_neg h1]
        by_cases h2 : max (n - 6) 0 = 1
        · rw [if_pos h2]
          constructor
          · intro _; omega
          · intro _; rfl
        · rw [if_neg h2, skipHoles_snd 6 0 _ (by omega) (by omega)]
          have e2 : (if max (n - 6) 0 - 1 ≤ 0 then max (n - 6) 0 - 1
              else max (max (n - 6) 0 - 1 - ((6 : Int) - ((0 : Nat) : Int))) 0) =
              max (n - 13) 0 := by
            split_ifs <;> omega
          rw [e2, ih (max (n - 13) 0) (by push_cast at h; omega)]
          omega
    · rw [if_neg hn]
      constructor
      · intro h0; exact absurd h0 (by decide)
      · intro h0; omega

theorem isFreeTurn_iff (i : Nat) (hi : i ≤ 5) (m : Int) :
    isFreeTurn i m = true ↔ 1 ≤ m ∧ m % 13 = (6 : Int) - (i : Int) := by
  unfold isFreeTurn
  by_cases hm : m > 0
  · obtain ⟨k, hk⟩ : ∃ k : Nat, m.toNat = k + 1 := ⟨m.toNat - 1, by omega⟩
    rw [hk, isFreeTurnLoop_succ, if_pos hm, skipHoles_snd 6 (i + 1) m (by omega) (by omega)]
    have e1 : (if m ≤ 0 then m else max (m - ((6 : Int) - ((i + 1 : Nat) : Int))) 0) =
        max (m - (5 - (i : Int))) 0 := by
      rw [if_neg (by omega)]; push_cast; congr 1; ring
    rw [e1]
    by_cases h1 : max (m - (5 - (i : Int))) 0 ≤ 0
    · rw [if_pos h1]
      constructor
      · intro h0; exact absurd h0 (by decide)
      · intro h0; omega
    · rw [if_neg h1]
      by_cases h2 : max (m - (5 - (i : Int))) 0 = 1
      · rw [if_pos h2]
        constructor
        · intro _; omega
        · intro _; rfl
      · rw [if_neg h2, skipHoles_snd 6 0 _ (by omega) (by omega)]
        have e2 : (if max (m - (5 - (i : Int))) 0 - 1 ≤ 0 then max (m - (5 - (i : Int))) 0 - 1
            else max (max (m - (5 - (i : Int))) 0 - 1 - ((6 : Int) - ((0 : Nat) : Int))) 0) =
            max (m - (12 - (i : Int))) 0 := by
          split_ifs <;> omega
        rw [e2, isFreeTurnLoop_zero k (max (m - (12 - (i : Int))) 0) (by omega)]
        omega
  · have h0 : m.toNat = 0 := by omega
    rw [h0]
    simp only [isFreeTurnLoop]
    constructor
    · intro h; exact absurd h (by decide)
    · intro h; omega

/-- C19 (closed form of the free-turn predicate).  For a hole index `i` in
`0..5` and every marble count `m`, `isFreeTurn(i, m)` is `true` exactly when
`m ≥ 1` and `m mod 13 = 6 - i`; in particular it is `false` for `m ≤ 0`. -/
theorem isFreeTurn_closed_form (i : Nat) (hi : i ≤ 5) (m : Int) :
    (isFreeTurn i m = true ↔ 1 ≤ m ∧ m % 13 = (6 : Int) - (i : Int)) ∧
      (m ≤ 0 → isFreeTurn i m = false) := by
  refine ⟨isFreeTurn_iff i hi m, fun h0 => ?_⟩
  cases h : isFreeTurn i m with
  | false => rfl
  | true =>
    have := ((isFreeTurn_iff i hi m).1 h).1
    omega

theorem isFreeTurn_closed_form_witness :
    (4 : Nat) ≤ 5 ∧
      (isFreeTurn 4 15 = true ↔ (1 : Int) ≤ 15 ∧ (15 : Int) % 13 = (6 : Int) - ((4 : Nat) : Int)) :=
  ⟨by decide, (isFreeTurn_closed_form 4 (by decide) 15).1⟩

/-! ## One lap of sowing without capture -/

/-- C18 as stated, for every board with non-negative holes, fails.  On the board
with stores 0 and 2, one marble in the maximizing player's hole `5` and
2147483645 marbles in the minimizing player's hole `0`, the game is not over and
the only child evaluates to `3 * (1 - 2) + 0 - 2147483645 = INT_MIN`, which is
not greater than the placeholder: `minimax` returns `INT_MIN` at depth 1 and the
index `-1` at depth 10. -/
theorem minimax_placeholder_counterexample :
    (mkBoard 0 2 [0, 0, 0, 0, 0, 1] [2147483645, 0, 0, 0, 0, 0]).NonNeg ∧
      isGameOver (mkBoard 0 2 [0, 0, 0, 0, 0, 1] [2147483645, 0, 0, 0, 0, 0]) = false ∧
      minimax (mkBoard 0 2 [0, 0, 0, 0, 0, 1] [2147483645, 0, 0, 0, 0, 0]) 1 INT_MIN INT_MAX
        true = INT_MIN ∧
      minimax (mkBoard 0 2 [0, 0, 0, 0, 0, 1] [2147483645, 0, 0, 0, 0, 0])
        NUMBER_OF_PREDICTED_TURNS INT_MIN INT_MAX true = -1 := by
  decide

theorem evaluate_bounds_depth (b : Board) (hb : b.WellFormed) (maximizingPlayer : Bool)
    (d : Nat) (hd : d ≤ 2147483) :
    -192 ≤ evaluate b maximizingPlayer (d : Int) ∧
      evaluate b maximizingPlayer (d : Int) ≤ max 192 (1000 * (d : Int)) := by
  have hd3 : (0 : Int) ≤ d := Int.natCast_nonneg d
  rw [evaluate_eq_exact b hb.1 (wellFormed_total b hb) maximizingPlayer d (by omega)
    (by omega)]
  obtain ⟨hn, ht⟩ := hb
  rw [getTotalNumberOfMarbles_eq] at ht
  have p1 := rowSum_nonneg hn.2.2.1
  have p2 := rowSum_nonneg hn.2.2.2
  have q1 := hn.1
  have q2 := hn.2.1
  simp only [Board.total] at ht
  simp only [TOTAL_NUMBER_OF_MARBLES, SCORE_WEIGHT, PLAYER_MARBLES_WEIGHT,
    OPPONENT_MARBLES_WEIGHT] at *
  cases maximizingPlayer with
  | true =>
    simp only [Board.moverHoles, Board.opponentHoles, if_true]
    split_ifs <;> omega
  | false =>
    simp only [Board.moverHoles, Board.opponentHoles, Bool.false_eq_true, if_false]
    split_ifs <;> omega

/-- The loop of the maximizing player over child values in `[lo, hi]`, whatever
the window: started from a best child already found, or from the placeholder
with a move still ahead, it ends on the value and the index of a child. -/
theorem maxLoop_spec (search : Board → Int → Int → Bool → Int) (b : Board) (beta lo hi : Int)
    (hlo : INT_MIN < lo)
    (hv : ∀ i a c m, lo ≤ search (updateBoard b true i) a c m ∧
      search (updateBoard b true i) a c m ≤ hi)
    (l : List (Fin NUMBER_OF_HOLES)) :
    ∀ alpha best idx : Int,
      ((lo ≤ best ∧ best ≤ hi ∧ ∃ j : Fin NUMBER_OF_HOLES, idx = (j.val : Int) ∧
          b.maxPlayerHoles j > 0) ∨
        (best = INT_MIN ∧ ∃ j ∈ l, b.maxPlayerHoles j > 0)) →
      lo ≤ (maxLoop search b beta l alpha best idx).1 ∧
        (maxLoop search b beta l alpha best idx).1 ≤ hi ∧
        ∃ j : Fin NUMBER_OF_HOLES, (maxLoop search b beta l alpha best idx).2 = (j.val : Int) ∧
          b.maxPlayerHoles j > 0 := by
  induction l with
  | nil =>
    intro alpha best idx h
    rcases h with h | ⟨_, j, hj, _⟩
    · exact h
    · simp at hj
  | cons i rest ih =>
    intro alpha best idx h
    unfold maxLoop
    dsimp only
    by_cases hi0 : b.maxPlayerHoles i > 0
    · rw [if_pos hi0]
      have hvi := hv i alpha beta (isFreeTurn i.val (b.maxPlayerHoles i))
      generalize search (updateBoard b true i) alpha beta
        (isFreeTurn i.val (b.maxPlayerHoles i)) = r at *
      have hbest : lo ≤ (if r > best then (r, (i.val : Int)) else (best, idx)).1 ∧
          (if r > best then (r, (i.val : Int)) else (best, idx)).1 ≤ hi ∧
          ∃ j : Fin NUMBER_OF_HOLES,
            (if r > best then (r, (i.val : Int)) else (best, idx)).2 = (j.val : Int) ∧
              b.maxPlayerHoles j > 0 := by
        by_cases hr : r > best
        · rw [if_pos hr]
          exact ⟨hvi.1, hvi.2, i, rfl, hi0⟩
        · rw [if_neg hr]
          rcases h with h | ⟨hb, _⟩
          · exact h
          · exfalso; omega
      split
      · exact hbest
      · exact ih _ _ _ (Or.inl hbest)
    · rw [if_neg hi0]
      rcases h with h | ⟨hb, j, hj, hj0⟩
      · exact ih _ _ _ (Or.inl h)
      · refine ih _ _ _ (Or.inr ⟨hb, j, ?_, hj0⟩)
        rcases List.mem_cons.mp hj with e | e
        · subst e; exact absurd hj0 hi0
        · exact e

theorem minLoop_spec (search : Board → Int → Int → Bool → Int) (b : Board) (alpha lo hi : Int)
    (hhi : hi < INT_MAX)
    (hv : ∀ i a c m, lo ≤ search (updateBoard b false i) a c m ∧
      search (updateBoard b false i) a c m ≤ hi)
    (l : List (Fin NUMBER_OF_HOLES)) :
    ∀ beta best idx : Int,
      ((lo ≤ best ∧ best ≤ hi ∧ ∃ j : Fin NUMBER_OF_HOLES, idx = (j.val : Int) ∧
          b.minPlayerHoles j > 0) ∨
        (best = INT_MAX ∧ ∃ j ∈ l, b.minPlayerHoles j > 0)) →
      lo ≤ (minLoop search b alpha l beta best idx).1 ∧
        (minLoop search b alpha l beta best idx).1 ≤ hi ∧
        ∃ j : Fin NUMBER_OF_HOLES, (minLoop search b alpha l beta best idx).2 = (j.val : Int) ∧
          b.minPlayerHoles j > 0 := by
  induction l with
  | nil =>
    intro beta best idx h
    rcases h with h | ⟨_, j, hj, _⟩
    · exact h
    · simp at hj
  | cons i rest ih =>
    intro beta best idx h
    unfold minLoop
    dsimp only
    by_cases hi0 : b.minPlayerHoles i > 0
    · rw [if_pos hi0]
      have hvi := hv i alpha beta (!isFreeTurn i.val (b.minPlayerHoles i))
      generalize search (updateBoard b false i) alpha beta
        (!isFreeTurn i.val (b.minPlayerHoles i)) = r at *
      have hbest : lo ≤ (if r < best then (r, (i.val : Int)) else (best, idx)).1 ∧
          (if r < best then (r, (i.val : Int)) else (best, idx)).1 ≤ hi ∧
          ∃ j : Fin NUMBER_OF_HOLES,
            (if r < best then (r, (i.val : Int)) else (best, idx)).2 = (j.val : Int) ∧
              b.minPlayerHoles j > 0 := by
        by_cases hr : r < best
        · rw [if_pos hr]
          exact ⟨hvi.1, hvi.2, i, rfl, hi0⟩
        · rw [if_neg hr]
          rcases h with h | ⟨hb, _⟩
          · exact h
          · exfalso; omega
      split
      · exact hbest
      · exact ih _ _ _ (Or.inl hbest)
    · rw [if_neg hi0]
      rcases h with h | ⟨hb, j, hj, hj0⟩
      · exact ih _ _ _ (Or.inl h)
      · refine ih _ _ _ (Or.inr ⟨hb, j, ?_, hj0⟩)
        rcases List.mem_cons.mp hj with e | e
        · subst e; exact absurd hj0 hi0
        · exact e

/-- The locals of a call at depth `n + 1` on a board of the game that is not
over, given bounds on what the calls at depth `n` return. -/
theorem minimaxLocals_of_children (n : Nat) (hi : Int) (hhi : hi < INT_MAX)
    (hchild : ∀ (c : Board) (a e : Int) (m : Bool), c.WellFormed →
      -192 ≤ minimax c n a e m ∧ minimax c n a e m ≤ hi)
    (b : Board) (hb : b.WellFormed) (hover : ¬ isGameOver b = true) (alpha beta : Int)
    (m : Bool) :
    -192 ≤ (minimaxLocals b (n + 1) alpha beta m).1 ∧
      (minimaxLocals b (n + 1) alpha beta m).1 ≤ hi ∧
      ∃ j : Fin NUMBER_OF_HOLES, (minimaxLocals b (n + 1) alpha beta m).2 = (j.val : Int) ∧
        b.moverHoles m j > 0 := by
  rw [minimaxLocals, if_neg hover]
  obtain ⟨⟨i, hi0⟩, ⟨j, hj0⟩⟩ := exists_move_of_not_gameOver b hb.1 hover
  cases m with
  | true =>
    simp only [if_true]
    exact maxLoop_spec (fun b a c m => minimax b n a c m) b beta (-192) hi (by decide)
      (fun k a c m => hchild _ a c m (updateBoard_wellFormed b hb true k))
      (List.finRange NUMBER_OF_HOLES) alpha INT_MIN (-1)
      (Or.inr ⟨rfl, i, List.mem_finRange i, hi0⟩)
  | false =>
    simp only [Bool.false_eq_true, if_false]
    exact minLoop_spec (fun b a c m => minimax b n a c m) b alpha (-192) hi hhi
      (fun k a c m => hchild _ a c m (updateBoard_wellFormed b hb false k))
      (List.finRange NUMBER_OF_HOLES) beta INT_MAX (-1)
      (Or.inr ⟨rfl, j, List.mem_finRange j, hj0⟩)

/-- On a board of the game, whatever the window, `minimax` returns a value
between `-192` and `max 192 (1000 * depth)`, as long as `1000 * depth` fits an
`int`. -/
theorem minimax_bounds (d : Nat) (hd : d ≤ 2147483) :
    ∀ (b : Board) (alpha beta : Int) (m : Bool), b.WellFormed →
      -192 ≤ minimax b d alpha beta m ∧ minimax b d alpha beta m ≤ max 192 (1000 * (d : Int)) := by
  induction d with
  | zero =>
    intro b alpha beta m hb
    exact evaluate_bounds_depth b hb m 0 (by omega)
  | succ n ih =>
    intro b alpha beta m hb
    have ih2 := ih (by omega)
    by_cases hover : isGameOver b = true
    · rw [minimax_of_gameOver b (n + 1) alpha beta m hover]
      exact evaluate_bounds_depth b hb m (n + 1) hd
    · have hloc := minimaxLocals_of_children n (max 192 (1000 * ((n + 1 : Nat) : Int)))
        (by show _ < (2147483647 : Int); push_cast; omega)
        (fun c a e m hc => ⟨(ih2 c a e m hc).1, by
          have := (ih2 c a e m hc).2
          push_cast
          omega⟩)
        b hb hover alpha beta m
      obtain ⟨l1, l2, j, l3, _⟩ := hloc
      have hj : j.val < 6 := j.isLt
      rw [minimax_eq_locals]
      rw [if_neg (by simp [hover])]
      split
      · rw [l3]; push_cast; omega
      · exact ⟨l1, l2⟩

/-- C18 (a node that is not terminal has a legal move), on a board of the game.
On a board with non-negative entries totalling 48 marbles on which `isGameOver`
is `false`, each side has a hole with more than zero marbles; and in `minimax`
at depth `d > 0` (with `1000 * d` within `int`, that is `d ≤ 2147483`), for every
window and either side, the loop leaves with a value that is neither `INT_MIN`
nor `INT_MAX` and with the index of a non-empty hole of the mover, not `-1`;
the value `minimax` returns is neither placeholder, and at the root depth 10 it
is not `-1`. -/
theorem minimax_never_placeholder (b : Board) (hb : b.NonNeg)
    (h48 : getTotalNumberOfMarbles b = TOTAL_NUMBER_OF_MARBLES)
    (hover : isGameOver b = false) (d : Nat) (hd0 : 0 < d) (hd : d ≤ 2147483)
    (alpha beta : Int) (maximizingPlayer : Bool) :
    (∃ i, b.maxPlayerHoles i > 0) ∧ (∃ i, b.minPlayerHoles i > 0) ∧
      (minimaxLocals b d alpha beta maximizingPlayer).1 ≠ INT_MIN ∧
      (minimaxLocals b d alpha beta maximizingPlayer).1 ≠ INT_MAX ∧
      (∃ j : Fin NUMBER_OF_HOLES,
        (minimaxLocals b d alpha beta maximizingPlayer).2 = (j.val : Int) ∧
          b.moverHoles maximizingPlayer j > 0) ∧
      (minimaxLocals b d alpha beta maximizingPlayer).2 ≠ -1 ∧
      minimax b d alpha beta maximizingPlayer ≠ INT_MIN ∧
      minimax b d alpha beta maximizingPlayer ≠ INT_MAX ∧
      (d = NUMBER_OF_PREDICTED_TURNS → minimax b d alpha beta maximizingPlayer ≠ -1) := by
  have hne : ¬ isGameOver b = true := by simp [hover]
  have hwf : b.WellFormed := ⟨hb, h48⟩
  obtain ⟨n, rfl⟩ : ∃ n, d = n + 1 := ⟨d - 1, by omega⟩
  have hmoves := exists_move_of_not_gameOver b hb hne
  have hloc := minimaxLocals_of_children n (max 192 (1000 * (n : Int)))
    (by show _ < (2147483647 : Int); omega)
    (fun c a e m hc => minimax_bounds n (by omega) c a e m hc)
    b hwf hne alpha beta maximizingPlayer
  obtain ⟨l1, l2, j, l3, l4⟩ := hloc
  have hval := minimax_bounds (n + 1) hd b alpha beta maximizingPlayer hwf
  have hmin : INT_MIN = (-2147483648 : Int) := rfl
  have hmax : INT_MAX = (2147483647 : Int) := rfl
  have hj : j.val < 6 := j.isLt
  refine ⟨hmoves.1, hmoves.2, ?_, ?_, ⟨j, l3, l4⟩, ?_, ?_, ?_, ?_⟩
  · rw [hmin]; omega
  · rw [hmax]; omega
  · rw [l3]; omega
  · rw [hmin]; omega
  · rw [hmax]; push_cast at hval; omega
  · intro h10
    rw [minimax_eq_locals, if_neg (by simp [hover]), if_pos h10, l3]
    omega

theorem minimax_never_placeholder_witness :
    (mkBoard 0 0 [4, 4, 4, 4, 4, 4] [4, 4, 4, 4, 4, 4]).NonNeg ∧
      getTotalNumberOfMarbles (mkBoard 0 0 [4, 4, 4, 4, 4, 4] [4, 4, 4, 4, 4, 4]) =
        TOTAL_NUMBER_OF_MARBLES ∧
      isGameOver (mkBoard 0 0 [4, 4, 4, 4, 4, 4] [4, 4, 4, 4, 4, 4]) = false ∧
      0 < 10 ∧ 10 ≤ 2147483 ∧
      minimax (mkBoard 0 0 [4, 4, 4, 4, 4, 4] [4, 4, 4, 4, 4, 4]) 10 INT_MIN INT_MAX false ≠
        INT_MIN :=
  ⟨by decide, by decide, by decide, by decide, by decide,
    (minimax_never_placeholder (mkBoard 0 0 [4, 4, 4, 4, 4, 4] [4, 4, 4, 4, 4, 4]) (by decide)
      (by decide) (by decide) 10 (by decide) (by decide) INT_MIN INT_MAX false).2.2.2.2.2.2.1⟩

end Mancala
